import Mathlib

/-!
Formal model of the Mcp-todo natural-language task pipeline.

Source files embedded here:
* `ai/parsers.py` — `validate_task_data`, `extract_priority`, `infer_category`,
  `extract_tags`, `clean_title`, `parse_task_metadata`;
* `ai/groq_client.py` — the JSON-recovery step of `parse_task_from_nl`;
* `ai/agent.py` — `TaskAgent.parse_task_nl` and `TaskAgent.find_matching_task`.

Strings are modelled as `List Char`; Python dictionaries as association lists in
insertion order; Python's heterogeneous values (and JSON values, which are the
same set here) as the inductive `PVal`.  The external collaborators — the Groq
transport and the `dateparser` library behind `parse_datetime` — are modelled as
parameters (`Except Unit (List Char)` for the transport outcome, and a
`List Char → Option (List Char)` resolver for `parse_datetime`), since their
bodies are not part of this repository.  `json.loads` is modelled by an
executable fuel-based JSON reader faithful to JSON on escape-free documents.
-/

/-- Characters removed by Python's `str.strip` / matched by `\s` (ASCII range). -/
def pySpace (c : Char) : Bool :=
  c = ' ' || c = '\t' || c = '\n' || c = '\r' || c.toNat = 11 || c.toNat = 12

/-- Python `str.strip()`: drop leading and trailing whitespace. -/
def pyStrip (s : List Char) : List Char :=
  ((s.dropWhile pySpace).reverse.dropWhile pySpace).reverse

/-- Python `str.lower()` (ASCII case folding suffices for this pipeline). -/
def pyLower (s : List Char) : List Char :=
  s.map Char.toLower

/-- Python's substring test `pat in s`. -/
def isSubstr (pat s : List Char) : Bool :=
  s.tails.any (fun t => pat.isPrefixOf t)

/-- Python/JSON values as they flow through the pipeline: exactly the shapes
`json.loads` can produce, which are also the shapes the validator receives.
Numbers are kept as their source character span (the decoder never computes
with them, it only carries them). -/
inductive PVal where
  | vnone
  | vbool (b : Bool)
  | vnum (digits : List Char)
  | vstr (s : List Char)
  | vlist (items : List PVal)
  | vdict (fields : List (List Char × PVal))

/-- Python truthiness of a `PVal` (for numbers: false exactly on zero spans,
judged by the mantissa digits). -/
def truthy : PVal → Bool
  | .vnone => false
  | .vbool b => b
  | .vnum d => !(((d.takeWhile (fun c => c ≠ 'e' && c ≠ 'E')).filter Char.isDigit).all (· = '0'))
  | .vstr s => !s.isEmpty
  | .vlist xs => !xs.isEmpty
  | .vdict fs => !fs.isEmpty

/-- Join a list of character lists with a separator. -/
def joinSep (sep : List Char) : List (List Char) → List Char
  | [] => []
  | [x] => x
  | x :: xs => x ++ sep ++ joinSep sep xs

/-- The apostrophe character (Python `repr` quotes strings with it). -/
def quoteC : Char := Char.ofNat 39

/-- Opening curly brace character. -/
def obraceC : Char := Char.ofNat 123

/-- Closing curly brace character. -/
def cbraceC : Char := Char.ofNat 125

mutual

/-- Python `repr` of a value (containers render their elements `repr`-style,
strings get quotes). -/
def pyRepr : PVal → List Char
  | .vnone => "None".toList
  | .vbool true => "True".toList
  | .vbool false => "False".toList
  | .vnum d => d
  | .vstr s => quoteC :: s ++ [quoteC]
  | .vlist xs => '[' :: pyReprItems xs ++ [']']
  | .vdict fs => obraceC :: pyReprFields fs ++ [cbraceC]

/-- Comma-separated `repr`s of list elements. -/
def pyReprItems : List PVal → List Char
  | [] => []
  | [x] => pyRepr x
  | x :: xs => pyRepr x ++ ", ".toList ++ pyReprItems xs

/-- Comma-separated `key: repr` pairs of dict fields. -/
def pyReprFields : List (List Char × PVal) → List Char
  | [] => []
  | [e] => quoteC :: e.1 ++ [quoteC] ++ ": ".toList ++ pyRepr e.2
  | e :: fs => quoteC :: e.1 ++ [quoteC] ++ ": ".toList ++ pyRepr e.2 ++ ", ".toList
      ++ pyReprFields fs

end

/-- Python `str()` applied to a `PVal`: identity on strings, the usual literal
text on scalars, `repr`-style rendering on containers. -/
def py_str : PVal → List Char
  | .vnone => "None".toList
  | .vbool true => "True".toList
  | .vbool false => "False".toList
  | .vnum d => d
  | .vstr s => s
  | v => pyRepr v

/-- A Python dict as the validator sees it: keys to values, insertion order. -/
abbrev Draft := List (List Char × PVal)

/-- Python dict lookup `d[k]` / membership test, first-occurrence semantics. -/
def dlookup (k : List Char) (d : Draft) : Option PVal :=
  (d.find? (fun e => e.1 == k)).map (·.2)

/-- The seven keys `validate_task_data` can emit. -/
def kTitle : List Char := "title".toList
/-- Key of the optional description field. -/
def kDescription : List Char := "description".toList
/-- Key of the priority field. -/
def kPriority : List Char := "priority".toList
/-- Key of the status field. -/
def kStatus : List Char := "status".toList
/-- Key of the category field. -/
def kCategory : List Char := "category".toList
/-- Key of the due-date field. -/
def kDueDate : List Char := "due_date".toList
/-- Key of the tags field. -/
def kTags : List Char := "tags".toList

/-- Description clause of `validate_task_data` (parsers.py:233-234): present and
truthy values are stringified and stripped. -/
def descPart (d : Draft) : Draft :=
  match dlookup kDescription d with
  | some v => if truthy v then [(kDescription, .vstr (pyStrip (py_str v)))] else []
  | none => []

/-- The allowed priority values (parsers.py:238). -/
def prioVals : List (List Char) := ["low".toList, "medium".toList, "high".toList]

/-- The allowed status values (parsers.py:245). -/
def statusVals : List (List Char) :=
  ["pending".toList, "in_progress".toList, "completed".toList]

/-- Priority clause (parsers.py:236-241): whenever the key is present the output
gets a priority — the lower-cased value if it is one of low/medium/high,
otherwise `medium`. -/
def prioPart (d : Draft) : Draft :=
  match dlookup kPriority d with
  | some v =>
      let p := pyLower (py_str v)
      [(kPriority, .vstr (if p ∈ prioVals then p else "medium".toList))]
  | none => []

/-- Status clause (parsers.py:243-246): lower-cased and kept only when it lands
in the allowed set; otherwise no status key is emitted. -/
def statusPart (d : Draft) : Draft :=
  match dlookup kStatus d with
  | some v =>
      let s := pyLower (py_str v)
      if s ∈ statusVals then [(kStatus, .vstr s)] else []
  | none => []

/-- Category clause (parsers.py:248-249). -/
def catPart (d : Draft) : Draft :=
  match dlookup kCategory d with
  | some v => if truthy v then [(kCategory, .vstr (pyStrip (py_str v)))] else []
  | none => []

/-- Due-date clause (parsers.py:251-256): truthy values are stringified and, if
they contain `/` (an ISO interval), cut at the first `/`. -/
def duePart (d : Draft) : Draft :=
  match dlookup kDueDate d with
  | some v =>
      if truthy v then
        let s := py_str v
        [(kDueDate, .vstr (if '/' ∈ s then s.takeWhile (· ≠ '/') else s))]
      else []
  | none => []

/-- Tags clause (parsers.py:258-259): only when the value is a Python list; each
truthy element is stringified and stripped, order preserved. -/
def tagsPart (d : Draft) : Draft :=
  match dlookup kTags d with
  | some (.vlist xs) =>
      [(kTags, .vlist ((xs.filter truthy).map (fun t => .vstr (pyStrip (py_str t)))))]
  | _ => []

/-- parsers.py:214-261 `validate_task_data`: requires a present truthy title
(strings are stringified and stripped), then assembles the optional clauses in
source order; raises `ValueError("Task title is required")` otherwise. -/
def validate_task_data (d : Draft) : Except (List Char) Draft :=
  match dlookup kTitle d with
  | some t =>
      if truthy t then
        .ok ([(kTitle, .vstr (pyStrip (py_str t)))] ++ descPart d ++ prioPart d ++ statusPart d
              ++ catPart d ++ duePart d ++ tagsPart d)
      else .error "Task title is required".toList
  | none => .error "Task title is required".toList

/-- Word character for the regex `\w` / `\b` classes. -/
def wordChar (c : Char) : Bool := c.isAlphanum || c = '_'

/-- Word boundary `\b` holds before the current position, given the previous
character (a text edge is a boundary against a word character). -/
def boundaryBefore : Option Char → Bool
  | none => true
  | some c => !wordChar c

/-- Word boundary `\b` holds after a word character, judged at the rest of the
text. -/
def boundaryAt : List Char → Bool
  | [] => true
  | c :: _ => !wordChar c

/-- Case-insensitive literal prefix test, pattern given in lower case. -/
def startsWithCI (pat s : List Char) : Bool := pyLower (s.take pat.length) == pat

/-- One pass of `re.sub(pattern, '', text)`: scan left to right, delete each
nonempty non-overlapping match; boundaries are judged against the previous
character of the original text.  The fuel is structural bookkeeping only: every
step consumes at least one character, so a fuel of the text's length (as passed
by `reSub`) never runs out before the text does. -/
def reSubGo (m : Option Char → List Char → Option Nat) : Nat → Option Char → List Char → List Char
  | 0, _, l => l
  | _+1, _, [] => []
  | fuel+1, prev, c :: rest =>
    match m prev (c :: rest) with
    | some (n+1) => reSubGo m fuel ((c :: rest).take (n+1)).getLast? ((c :: rest).drop (n+1))
    | _ => c :: reSubGo m fuel (some c) rest

/-- Drive `reSubGo` over a whole text. -/
def reSub (m : Option Char → List Char → Option Nat) (text : List Char) : List Char :=
  reSubGo m text.length none text

/-- `re.search(pattern, text)`: the leftmost match, returned as its `group(0)`
text. -/
def reSearchGo (m : Option Char → List Char → Option Nat) :
    Option Char → List Char → Option (List Char)
  | _, [] => none
  | prev, c :: rest =>
    match m prev (c :: rest) with
    | some n => some ((c :: rest).take n)
    | none => reSearchGo m (some c) rest

/-- Matcher for `\b(w1|w2|...)\b` with lower-case literal words, ignore-case. -/
def matchWordAlt (words : List (List Char)) : Option Char → List Char → Option Nat :=
  fun prev s =>
    if boundaryBefore prev then
      (words.find? (fun w => startsWithCI w s && boundaryAt (s.drop w.length))).map List.length
    else none

/-- Matcher for `am|pm` at the start of the text, ignore-case. -/
def ampmAt (s : List Char) : Bool := startsWithCI "am".toList s || startsWithCI "pm".toList s

/-- Tail of the `\bat\s+\d{1,2}(:\d{2})?\s*(am|pm)?\b` pattern: length consumed
by `\s*(am|pm)?\b` when the previous character is a digit, with the regex
backtracking over `\s*` and the optional group played out exactly. -/
def m2Tail (s : List Char) : Option Nat :=
  let k := (s.takeWhile pySpace).length
  let t := s.drop k
  if ampmAt t && boundaryAt (t.drop 2) then some (k + 2)
  else
    match t with
    | [] => some 0
    | c :: _ => if wordChar c then (if k > 0 then some k else none) else some 0

/-- Matcher for `\bat\s+\d{1,2}(:\d{2})?\s*(am|pm)?\b` (clean_title's clock-time
pattern), greedy with backtracking over the digit count and the colon group. -/
def mAtTime : Option Char → List Char → Option Nat := fun prev s =>
  if boundaryBefore prev && startsWithCI "at".toList s then
    let r := s.drop 2
    let nws := (r.takeWhile pySpace).length
    if nws = 0 then none
    else
      let r2 := r.drop nws
      let nd := (r2.takeWhile Char.isDigit).length
      if nd = 0 then none
      else
        let tryD := fun (dlen : Nat) =>
          let r3 := r2.drop dlen
          let withColon :=
            match r3 with
            | ':' :: a :: b :: _ =>
                if a.isDigit && b.isDigit then (m2Tail (r3.drop 3)).map (fun t => dlen + 3 + t)
                else none
            | _ => none
          match withColon with
          | some n => some n
          | none => (m2Tail r3).map (fun t => dlen + t)
        (if nd ≥ 2 then (tryD 2).orElse (fun _ => tryD 1) else tryD 1).map
          (fun n => 2 + nws + n)
  else none

/-- Matcher for `\bby\s+\w+\b` (the trailing boundary is free after a greedy
`\w+`). -/
def mByWord : Option Char → List Char → Option Nat := fun prev s =>
  if boundaryBefore prev && startsWithCI "by".toList s then
    let r := s.drop 2
    let nws := (r.takeWhile pySpace).length
    if nws = 0 then none
    else
      let nw := ((r.drop nws).takeWhile wordChar).length
      if nw = 0 then none else some (2 + nws + nw)
  else none

/-- Collapse runs of whitespace to single spaces: `' '.join(text.split())`. -/
def wsCollapse (s : List Char) : List Char :=
  joinSep [' '] ((s.splitOnP pySpace).filter (fun w => !w.isEmpty))

/-- Upper-case the first character, as `cleaned[0].upper() + cleaned[1:]`. -/
def capFirst : List Char → List Char
  | [] => []
  | c :: r => c.toUpper :: r

/-- parsers.py:142-171 `clean_title`: delete the relative-day words, clock-time
expressions, `by <word>` phrases and priority markers (in that order, each an
ignore-case `re.sub`), collapse whitespace, capitalize, strip. -/
def clean_title (text : List Char) : List Char :=
  let c1 := reSub (matchWordAlt ["tomorrow".toList, "today".toList, "tonight".toList]) text
  let c2 := reSub mAtTime c1
  let c3 := reSub mByWord c2
  let c4 := reSub (matchWordAlt
    ["urgent".toList, "asap".toList, "high priority".toList, "low priority".toList]) c3
  pyStrip (capFirst (wsCollapse c4))

/-- parsers.py:59-62, the high-priority keyword list, in source order. -/
def high_keywords : List (List Char) :=
  ["urgent", "asap", "critical", "important", "emergency",
   "high priority", "crucial", "vital", "pressing"].map String.toList

/-- parsers.py:65-68, the low-priority keyword list, in source order. -/
def low_keywords : List (List Char) :=
  ["low priority", "whenever", "someday", "maybe", "not urgent", "low", "minor"].map
    String.toList

/-- parsers.py:46-78 `extract_priority`: first high-keyword hit wins, then low
keywords, default medium; all checks are substring tests on the lower-cased
text. -/
def extract_priority (text : List Char) : List Char :=
  let tl := pyLower text
  if high_keywords.any (fun k => isSubstr k tl) then "high".toList
  else if low_keywords.any (fun k => isSubstr k tl) then "low".toList
  else "medium".toList

/-- parsers.py:94-102, the category keyword table, in source (insertion) order. -/
def categoriesTable : List (List Char × List (List Char)) :=
  [("work".toList, ["work", "meeting", "project", "deadline", "presentation", "report",
      "email"].map String.toList),
   ("personal".toList, ["personal", "self", "health", "exercise", "doctor",
      "appointment"].map String.toList),
   ("shopping".toList, ["buy", "purchase", "shop", "groceries", "store", "order"].map
      String.toList),
   ("home".toList, ["home", "house", "clean", "repair", "fix", "maintenance"].map
      String.toList),
   ("finance".toList, ["pay", "bill", "bank", "money", "budget", "invoice"].map
      String.toList),
   ("learning".toList, ["learn", "study", "read", "course", "tutorial", "practice"].map
      String.toList),
   ("social".toList, ["call", "meet", "visit", "party", "event", "friend", "family"].map
      String.toList)]

/-- parsers.py:81-109 `infer_category`: first category with a keyword substring
hit in the lower-cased text, else none. -/
def infer_category (text : List Char) : Option (List Char) :=
  let tl := pyLower text
  (categoriesTable.find? (fun e => e.2.any (fun k => isSubstr k tl))).map (·.1)

/-- parsers.py:126-132, the tag keyword table, in source order. -/
def tagsTable : List (List Char × List (List Char)) :=
  [("urgent".toList, ["urgent", "asap", "emergency"].map String.toList),
   ("important".toList, ["important", "critical", "crucial"].map String.toList),
   ("recurring".toList, ["daily", "weekly", "monthly", "recurring"].map String.toList),
   ("quick".toList, ["quick", "fast", "brief", "5 minutes", "10 minutes"].map String.toList),
   ("long".toList, ["long", "extended", "lengthy"].map String.toList)]

/-- parsers.py:112-139 `extract_tags`: every tag with a keyword substring hit,
first-seen order, no duplicates (each tag appears once in the table). -/
def extract_tags (text : List Char) : List (List Char) :=
  let tl := pyLower text
  (tagsTable.filter (fun e => e.2.any (fun k => isSubstr k tl))).map (·.1)

/-- Matcher for the loose relative-day search pattern `(tomorrow|today|tonight)`
(no boundaries). -/
def mDayWord : Option Char → List Char → Option Nat := fun _ s =>
  (["tomorrow".toList, "today".toList, "tonight".toList].find?
    (fun w => startsWithCI w s)).map List.length

/-- Matcher for the loose search pattern `at\s+(\d{1,2}(:\d{2})?\s*(am|pm)?)`
(no boundaries, so the greedy walk never backtracks). -/
def mAtTimeLoose : Option Char → List Char → Option Nat := fun _ s =>
  if startsWithCI "at".toList s then
    let r := s.drop 2
    let nws := (r.takeWhile pySpace).length
    if nws = 0 then none
    else
      let r2 := r.drop nws
      let nd := min ((r2.takeWhile Char.isDigit).length) 2
      if nd = 0 then none
      else
        let r3 := r2.drop nd
        let colonLen :=
          match r3 with
          | ':' :: a :: b :: _ => if a.isDigit && b.isDigit then 3 else 0
          | _ => 0
        let r4 := r3.drop colonLen
        let k := (r4.takeWhile pySpace).length
        let ampm := if ampmAt (r4.drop k) then 2 else 0
        some (2 + nws + nd + colonLen + k + ampm)
  else none

/-- Matcher for a loose `lit\s+(\w+)` search pattern (`by`/`on`/`next`). -/
def mWordAfter (lit : List Char) : Option Char → List Char → Option Nat := fun _ s =>
  if startsWithCI lit s then
    let r := s.drop lit.length
    let nws := (r.takeWhile pySpace).length
    if nws = 0 then none
    else
      let nw := ((r.drop nws).takeWhile wordChar).length
      if nw = 0 then none else some (lit.length + nws + nw)
  else none

/-- parsers.py:195-201, the ordered due-date search patterns. -/
def due_date_patterns : List (Option Char → List Char → Option Nat) :=
  [mDayWord, mAtTimeLoose, mWordAfter "by".toList, mWordAfter "on".toList,
   mWordAfter "next".toList]

/-- parsers.py:174-211 `parse_task_metadata`, the deterministic fallback
extractor.  `resolver` stands for `parse_datetime` — a thin wrapper over the
external dateparser library, so its behaviour is a parameter here: the loop
takes the first pattern whose leftmost match the resolver accepts. -/
def parse_task_metadata (resolver : List Char → Option (List Char)) (text : List Char) :
    Draft :=
  let base : Draft :=
    [(kTitle, .vstr (clean_title text)),
     (kPriority, .vstr (extract_priority text)),
     (kCategory, match infer_category text with | some c => .vstr c | none => .vnone),
     (kTags, .vlist ((extract_tags text).map .vstr))]
  match due_date_patterns.findSome? (fun m => (reSearchGo m none text).bind resolver) with
  | some d => base ++ [(kDueDate, .vstr d)]
  | none => base

/-- JSON inter-token whitespace. -/
def jWs (c : Char) : Bool := c = ' ' || c = '\t' || c = '\n' || c = '\r'

/-- Drop leading JSON whitespace. -/
def skipJWs (s : List Char) : List Char := s.dropWhile jWs

/-- First character of a JSON number. -/
def numStart (c : Char) : Bool := c.isDigit || c = '-'

/-- Characters a JSON number span may contain. -/
def numChar (c : Char) : Bool :=
  c.isDigit || c = '-' || c = '+' || c = '.' || c = 'e' || c = 'E'

/-- Read a JSON string body up to the closing quote (no escape handling: the
model of `json.loads` is exact on escape-free documents, which is all the
developments below quantify over). -/
def readJStr : List Char → Option (List Char × List Char)
  | [] => none
  | c :: r =>
      if c = '"' then some ([], r)
      else
        match readJStr r with
        | some (s, r2) => some (c :: s, r2)
        | none => none

mutual

/-- Fuel-based JSON value reader, the model of `json.loads` (with the top-level
wrapper `json_loads`).  Numbers are read as their raw character span. -/
def parseJVal : Nat → List Char → Option (PVal × List Char)
  | 0, _ => none
  | fuel+1, cs =>
    match skipJWs cs with
    | [] => none
    | c :: r =>
      if c = '"' then
        match readJStr r with
        | some (s, r2) => some (.vstr s, r2)
        | none => none
      else if c = '[' then
        match skipJWs r with
        | [] => none
        | c2 :: r2 =>
            if c2 = ']' then some (.vlist [], r2)
            else
              match parseJItems fuel (c2 :: r2) with
              | some (xs, r3) => some (.vlist xs, r3)
              | none => none
      else if c = obraceC then
        match skipJWs r with
        | [] => none
        | c2 :: r2 =>
            if c2 = cbraceC then some (.vdict [], r2)
            else
              match parseJFields fuel (c2 :: r2) with
              | some (fs, r3) => some (.vdict fs, r3)
              | none => none
      else if numStart c then
        some (.vnum (c :: r.takeWhile numChar), r.dropWhile numChar)
      else if c = 't' then
        match r with
        | 'r' :: 'u' :: 'e' :: r2 => some (.vbool true, r2)
        | _ => none
      else if c = 'f' then
        match r with
        | 'a' :: 'l' :: 's' :: 'e' :: r2 => some (.vbool false, r2)
        | _ => none
      else if c = 'n' then
        match r with
        | 'u' :: 'l' :: 'l' :: r2 => some (.vnone, r2)
        | _ => none
      else none

/-- One-or-more comma-separated array elements, through the closing bracket. -/
def parseJItems : Nat → List Char → Option (List PVal × List Char)
  | 0, _ => none
  | fuel+1, cs =>
    match parseJVal fuel cs with
    | none => none
    | some (v, r) =>
      match skipJWs r with
      | [] => none
      | c :: r2 =>
          if c = ',' then
            match parseJItems fuel r2 with
            | some (xs, r3) => some (v :: xs, r3)
            | none => none
          else if c = ']' then some ([v], r2)
          else none

/-- One-or-more comma-separated object members, through the closing brace. -/
def parseJFields : Nat → List Char → Option (List (List Char × PVal) × List Char)
  | 0, _ => none
  | fuel+1, cs =>
    match skipJWs cs with
    | [] => none
    | c :: r =>
      if c = '"' then
        match readJStr r with
        | some (k, r1) =>
          match skipJWs r1 with
          | [] => none
          | c2 :: r2 =>
            if c2 = ':' then
              match parseJVal fuel r2 with
              | some (v, r3) =>
                match skipJWs r3 with
                | [] => none
                | c3 :: r4 =>
                    if c3 = ',' then
                      match parseJFields fuel r4 with
                      | some (fs, r5) => some ((k, v) :: fs, r5)
                      | none => none
                    else if c3 = cbraceC then some ([(k, v)], r4)
                    else none
              | none => none
            else none
        | none => none
      else none

end

/-- Model of `json.loads`: one JSON document, nothing but whitespace after it. -/
def json_loads (s : List Char) : Option PVal :=
  match parseJVal (s.length + 1) s with
  | some (v, r) => if (skipJWs r).isEmpty then some v else none
  | none => none

/-- Python `str.find(ch)`: index of the first occurrence (`none` plays -1). -/
def pyFind (ch : Char) (s : List Char) : Option Nat := s.findIdx? (· = ch)

/-- Python `str.rfind(ch)`: index of the last occurrence. -/
def pyRfind (ch : Char) (s : List Char) : Option Nat :=
  (s.reverse.findIdx? (· = ch)).map (fun i => s.length - 1 - i)

/-- Python slice `s[i:j]`. -/
def pySlice (i j : Nat) (s : List Char) : List Char := (s.take j).drop i

/-- Text after the first occurrence of `pat` (Python `s.split(pat)[1]`, whose
later cut at the next fence marker the decoder always performs). -/
def afterFirstSub (pat : List Char) : List Char → Option (List Char)
  | [] => if pat.isEmpty then some [] else none
  | c :: r =>
      if pat.isPrefixOf (c :: r) then some ((c :: r).drop pat.length)
      else afterFirstSub pat r

/-- Text before the first occurrence of `pat` (the whole text if absent), the
model of Python `s.split(pat)[0]`. -/
def beforeFirstSub (pat : List Char) : List Char → List Char
  | [] => []
  | c :: r => if pat.isPrefixOf (c :: r) then [] else c :: beforeFirstSub pat r

/-- Python substring containment, phrased through `afterFirstSub`. -/
def containsSub (pat s : List Char) : Bool := (afterFirstSub pat s).isSome

/-- The `json`-tagged fence marker. -/
def fenceJson : List Char := "```json".toList

/-- The bare fence marker. -/
def fenceBare : List Char := "```".toList

/-- groq_client.py:122-171, the JSON-recovery step of `parse_task_from_nl`,
applied to the raw model response: strip, unfence, direct parse, then greedy
bracket-span recovery preferring an array span that starts before any object
span (a failed array-span parse falls through to the object span); a dict is
wrapped as a one-element batch; `none` models the raised `ValueError`. -/
def parse_task_from_nl (response : List Char) : Option (List PVal) :=
  let content0 := pyStrip response
  let content :=
    if containsSub fenceJson content0 then
      pyStrip (beforeFirstSub fenceBare ((afterFirstSub fenceJson content0).getD []))
    else if containsSub fenceBare content0 then
      pyStrip (beforeFirstSub fenceBare ((afterFirstSub fenceBare content0).getD []))
    else content0
  let data : Option PVal :=
    match json_loads content with
    | some d => some d
    | none =>
        let bracket_start := pyFind '[' content
        let bracket_end := pyRfind ']' content
        let brace_start := pyFind obraceC content
        let brace_end := pyRfind cbraceC content
        let arrAttempt : Option PVal :=
          match bracket_start, bracket_end with
          | some bs, some be =>
              if be > bs && (brace_start.isNone || bs < brace_start.getD 0) then
                json_loads (pySlice bs (be + 1) content)
              else none
          | _, _ => none
        match arrAttempt with
        | some d => some d
        | none =>
            match brace_start, brace_end with
            | some os, some oe =>
                if oe > os then json_loads (pySlice os (oe + 1) content) else none
            | _, _ => none
  match data with
  | some (.vdict fs) => some [PVal.vdict fs]
  | some (.vlist xs) => some xs
  | _ => none

/-- Outcome of a decoded batch under per-record validation (agent.py:42-50):
non-dict records raise inside `validate_task_data` and are skipped, failed
validations are skipped, surviving records are kept in order. -/
def validateBatch (records : List PVal) : List Draft :=
  records.filterMap (fun v =>
    match v with
    | .vdict d => (validate_task_data d).toOption
    | _ => none)

/-- agent.py:27-61 `TaskAgent.parse_task_nl`: try the model path (the transport
outcome `llm` is a parameter, the decode and per-record validation follow the
source); every model-path failure — transport error, decode failure, or an
all-invalid batch — falls back to the deterministic extractor + validation,
whose error is the only one that escapes. -/
def parse_task_nl (llm : Except Unit (List Char))
    (resolver : List Char → Option (List Char)) (text : List Char) :
    Except (List Char) (List Draft) :=
  let fb := (validate_task_data (parse_task_metadata resolver text)).map (fun v => [v])
  match llm with
  | .error _ => fb
  | .ok raw =>
      match parse_task_from_nl raw with
      | none => fb
      | some records =>
          let validated := validateBatch records
          if validated.isEmpty then fb else .ok validated

/-- A stored task as `find_matching_task` reads it: an id and an optional title
(read back as `task.get('title', '')`). -/
structure PTask where
  id : List Char
  title : Option (List Char)

/-- agent.py:150-177 `TaskAgent.find_matching_task`: case-insensitive substring
match of `task_match` against every title; the single match's id, else `None`
(for both zero and several matches). -/
def find_matching_task (task_match : List Char) (tasks : List PTask) : Option (List Char) :=
  let m := pyLower task_match
  let hits := tasks.filter (fun t => isSubstr m (pyLower (t.title.getD [])))
  if hits.length = 1 then hits.head?.map PTask.id else none

theorem dlookup_cons (k : List Char) (e : List Char × PVal) (d : Draft) :
    dlookup k (e :: d) = if e.1 = k then some e.2 else dlookup k d := by
  by_cases h : e.1 = k
  · rw [if_pos h]; simp [dlookup, List.find?_cons, h]
  · rw [if_neg h]; simp [dlookup, List.find?_cons, h]

theorem dlookup_here (k : List Char) (v : PVal) (rest : Draft) :
    dlookup k ((k, v) :: rest) = some v := by
  simp [dlookup_cons]

theorem dlookup_skip {k : List Char} {seg : Draft} (rest : Draft)
    (h : ∀ e ∈ seg, e.1 ≠ k) : dlookup k (seg ++ rest) = dlookup k rest := by
  induction seg with
  | nil => rfl
  | cons e t ih =>
      rw [List.cons_append, dlookup_cons, if_neg (h e (List.mem_cons_self e t))]
      exact ih (fun x hx => h x (List.mem_cons_of_mem e hx))

theorem dropWhile_idem {α} (p : α → Bool) (l : List α) :
    (l.dropWhile p).dropWhile p = l.dropWhile p := by
  induction l with
  | nil => rfl
  | cons c t ih => by_cases h : p c <;> simp [List.dropWhile_cons, h, ih]

theorem head?_dropWhile_false {α} (p : α → Bool) (l : List α) :
    ∀ x, (l.dropWhile p).head? = some x → p x = false := by
  induction l with
  | nil => intro x hx; exact absurd hx (by simp)
  | cons c t ih =>
      intro x hx
      by_cases h : p c
      · exact ih x (by simpa [List.dropWhile_cons, h] using hx)
      · rw [List.dropWhile_cons, if_neg (by simpa using h)] at hx
        cases hx
        simpa using h

theorem pyStrip_head_false (s : List Char) :
    ∀ x, (pyStrip s).head? = some x → pySpace x = false := by
  intro x hx
  rw [pyStrip, List.head?_reverse] at hx
  obtain ⟨pre, hpre⟩ :=
    List.dropWhile_suffix (l := (s.dropWhile pySpace).reverse) (p := pySpace)
  have hne : (s.dropWhile pySpace).reverse.dropWhile pySpace ≠ [] := by
    intro h0
    rw [h0] at hx
    exact absurd hx (by simp)
  have h2 : (s.dropWhile pySpace).reverse.getLast? = some x := by
    rw [← hpre, List.getLast?_append_of_ne_nil pre hne]
    exact hx
  rw [List.getLast?_reverse] at h2
  exact head?_dropWhile_false pySpace s x h2

theorem pyStrip_front (s : List Char) : (pyStrip s).dropWhile pySpace = pyStrip s := by
  cases hc : pyStrip s with
  | nil => simp
  | cons x r =>
      have hx : pySpace x = false := pyStrip_head_false s x (by rw [hc]; rfl)
      rw [List.dropWhile_cons, if_neg (by simp [hx])]

theorem pyStrip_idem (s : List Char) : pyStrip (pyStrip s) = pyStrip s := by
  conv_lhs => rw [pyStrip]
  rw [pyStrip_front]
  have h : (pyStrip s).reverse = (s.dropWhile pySpace).reverse.dropWhile pySpace := by
    rw [pyStrip, List.reverse_reverse]
  rw [h, dropWhile_idem, ← h, List.reverse_reverse]

theorem descPart_shape (d : Draft) :
    descPart d = [] ∨ ∃ s, descPart d = [(kDescription, .vstr s)] ∧ pyStrip s = s := by
  unfold descPart
  cases dlookup kDescription d with
  | none => exact Or.inl rfl
  | some v =>
      by_cases h : truthy v
      · exact Or.inr ⟨pyStrip (py_str v), by simp [h], pyStrip_idem _⟩
      · exact Or.inl (by simp [h])

theorem catPart_shape (d : Draft) :
    catPart d = [] ∨ ∃ s, catPart d = [(kCategory, .vstr s)] ∧ pyStrip s = s := by
  unfold catPart
  cases dlookup kCategory d with
  | none => exact Or.inl rfl
  | some v =>
      by_cases h : truthy v
      · exact Or.inr ⟨pyStrip (py_str v), by simp [h], pyStrip_idem _⟩
      · exact Or.inl (by simp [h])

theorem prioPart_shape (d : Draft) :
    prioPart d = [] ∨ ∃ p, prioPart d = [(kPriority, .vstr p)] ∧ p ∈ prioVals := by
  unfold prioPart
  cases dlookup kPriority d with
  | none => exact Or.inl rfl
  | some v =>
      by_cases h : pyLower (py_str v) ∈ prioVals
      · exact Or.inr ⟨pyLower (py_str v), by simp [h], h⟩
      · exact Or.inr ⟨"medium".toList, by simp [h], by decide⟩

theorem statusPart_shape (d : Draft) :
    statusPart d = [] ∨ ∃ s, statusPart d = [(kStatus, .vstr s)] ∧ s ∈ statusVals := by
  unfold statusPart
  cases dlookup kStatus d with
  | none => exact Or.inl rfl
  | some v =>
      by_cases h : pyLower (py_str v) ∈ statusVals
      · exact Or.inr ⟨pyLower (py_str v), by simp [h], h⟩
      · exact Or.inl (by simp [h])

theorem duePart_shape (d : Draft) :
    duePart d = [] ∨ ∃ s, duePart d = [(kDueDate, .vstr s)] ∧ '/' ∉ s := by
  unfold duePart
  cases dlookup kDueDate d with
  | none => exact Or.inl rfl
  | some v =>
      by_cases ht : truthy v
      · refine Or.inr ?_
        by_cases hs : '/' ∈ py_str v
        · refine ⟨(py_str v).takeWhile (· ≠ '/'), by simp [ht, hs], ?_⟩
          intro hmem
          have := List.mem_takeWhile_imp hmem
          simp at this
        · exact ⟨py_str v, by simp [ht, hs], hs⟩
      · exact Or.inl (by simp [ht])

theorem tagsPart_shape (d : Draft) :
    tagsPart d = [] ∨
      ∃ ts : List (List Char),
        tagsPart d = [(kTags, .vlist (ts.map PVal.vstr))] ∧ ∀ s ∈ ts, pyStrip s = s := by
  unfold tagsPart
  cases hv : dlookup kTags d with
  | none => exact Or.inl rfl
  | some v =>
      cases v with
      | vlist xs =>
          refine Or.inr ⟨(xs.filter truthy).map (fun t => pyStrip (py_str t)), ?_, ?_⟩
          · simp [List.map_map, Function.comp]
          · intro s hs
            simp only [List.mem_map] at hs
            obtain ⟨t, _, rfl⟩ := hs
            exact pyStrip_idem _
      | vnone => exact Or.inl rfl
      | vbool b => exact Or.inl rfl
      | vnum n => exact Or.inl rfl
      | vstr s => exact Or.inl rfl
      | vdict fs => exact Or.inl rfl

theorem descPart_keys (d : Draft) : ∀ e ∈ descPart d, e.1 = kDescription := by
  rcases descPart_shape d with h | ⟨s, h, _⟩ <;> rw [h] <;> simp

theorem prioPart_keys (d : Draft) : ∀ e ∈ prioPart d, e.1 = kPriority := by
  rcases prioPart_shape d with h | ⟨s, h, _⟩ <;> rw [h] <;> simp

theorem statusPart_keys (d : Draft) : ∀ e ∈ statusPart d, e.1 = kStatus := by
  rcases statusPart_shape d with h | ⟨s, h, _⟩ <;> rw [h] <;> simp

theorem catPart_keys (d : Draft) : ∀ e ∈ catPart d, e.1 = kCategory := by
  rcases catPart_shape d with h | ⟨s, h, _⟩ <;> rw [h] <;> simp

theorem duePart_keys (d : Draft) : ∀ e ∈ duePart d, e.1 = kDueDate := by
  rcases duePart_shape d with h | ⟨s, h, _⟩ <;> rw [h] <;> simp

theorem tagsPart_keys (d : Draft) : ∀ e ∈ tagsPart d, e.1 = kTags := by
  rcases tagsPart_shape d with h | ⟨s, h, _⟩ <;> rw [h] <;> simp

theorem skip_seg {k : List Char} {seg : Draft} {key : List Char} (rest : Draft)
    (hkeys : ∀ e ∈ seg, e.1 = key) (h : key ≠ k) :
    dlookup k (seg ++ rest) = dlookup k rest :=
  dlookup_skip rest (fun e he => by rw [hkeys e he]; exact h)

theorem validate_ok_inv (d v : Draft) (h : validate_task_data d = .ok v) :
    ∃ t, dlookup kTitle d = some t ∧ truthy t = true ∧
      v = (kTitle, .vstr (pyStrip (py_str t))) ::
        (descPart d ++ (prioPart d ++ (statusPart d ++ (catPart d ++
          (duePart d ++ tagsPart d))))) := by
  unfold validate_task_data at h
  cases hl : dlookup kTitle d with
  | none => rw [hl] at h; exact absurd h (by simp)
  | some t =>
      rw [hl] at h
      dsimp only at h
      by_cases ht : truthy t
      · rw [if_pos ht] at h
        refine ⟨t, rfl, ht, ?_⟩
        cases h
        simp [List.append_assoc]
      · rw [if_neg ht] at h
        exact absurd h (by simp)

theorem dlookup_keys_none {k key : List Char} {seg : Draft}
    (hkeys : ∀ e ∈ seg, e.1 = key) (h : key ≠ k) : dlookup k seg = none := by
  rw [show seg = seg ++ [] from (List.append_nil seg).symm, skip_seg [] hkeys h]
  rfl

/-- C1 counterexample: a whitespace-only title is truthy in Python, so
`validate_task_data` accepts it — trimming it to the empty string — instead of
failing with the missing-required-field error as the claim demands of every
blank-after-trimming title. -/
theorem c1_blank_title_passes :
    validate_task_data [(kTitle, .vstr [' '])] = .ok [(kTitle, .vstr [])] := rfl

/-- C1 (amended): for every input mapping whose title key is absent or whose
title value is falsy (in particular the empty string), `validate_task_data`
fails with the missing-required-field ValueError, regardless of the values or
validity of every other field; a whitespace-only title, however, is truthy and
passes. -/
theorem c1_title_required (d : Draft)
    (h : dlookup kTitle d = none ∨ ∃ t, dlookup kTitle d = some t ∧ truthy t = false) :
    validate_task_data d = .error "Task title is required".toList := by
  unfold validate_task_data
  rcases h with h | ⟨t, ht, htf⟩
  · rw [h]
  · rw [ht]
    dsimp only
    rw [if_neg (by simp [htf])]

/-- Witness for `c1_title_required` at an empty-string title and an invalid
priority. -/
theorem c1_title_required_witness :
    validate_task_data [(kTitle, .vstr []), (kPriority, .vstr "extreme".toList)]
      = .error "Task title is required".toList :=
  c1_title_required _ (Or.inr ⟨.vstr [], rfl, rfl⟩)

/-- The only keys `validate_task_data` ever writes. -/
def allowedKeys : List (List Char) :=
  [kTitle, kDescription, kPriority, kStatus, kCategory, kDueDate, kTags]

/-- C9: the key set of every successful validation output is contained in the
seven schema keys; any other input key is discarded. -/
theorem c9_output_keys (d v : Draft) (h : validate_task_data d = .ok v) :
    ∀ k ∈ v.map Prod.fst, k ∈ allowedKeys := by
  obtain ⟨t, _, _, rfl⟩ := validate_ok_inv d v h
  intro k hk
  simp only [List.map_cons, List.map_append, List.mem_cons, List.mem_append] at hk
  rcases hk with rfl | hk | hk | hk | hk | hk | hk
  · simp [allowedKeys]
  · obtain ⟨e, he, heq⟩ := List.mem_map.mp hk
    rw [← heq, descPart_keys d e he]; simp [allowedKeys]
  · obtain ⟨e, he, heq⟩ := List.mem_map.mp hk
    rw [← heq, prioPart_keys d e he]; simp [allowedKeys]
  · obtain ⟨e, he, heq⟩ := List.mem_map.mp hk
    rw [← heq, statusPart_keys d e he]; simp [allowedKeys]
  · obtain ⟨e, he, heq⟩ := List.mem_map.mp hk
    rw [← heq, catPart_keys d e he]; simp [allowedKeys]
  · obtain ⟨e, he, heq⟩ := List.mem_map.mp hk
    rw [← heq, duePart_keys d e he]; simp [allowedKeys]
  · obtain ⟨e, he, heq⟩ := List.mem_map.mp hk
    rw [← heq, tagsPart_keys d e he]; simp [allowedKeys]

/-- Witness for `c9_output_keys`: an input carrying an id and an arbitrary extra
field validates to the title-only mapping, whose sole key is a schema key. -/
theorem c9_output_keys_witness :
    validate_task_data [(kTitle, PVal.vstr ['a']), ("id".toList, PVal.vnum ['7']),
        ("zzz".toList, PVal.vbool true)] = .ok [(kTitle, PVal.vstr ['a'])]
    ∧ kTitle ∈ allowedKeys :=
  ⟨rfl, c9_output_keys
    [(kTitle, .vstr ['a']), ("id".toList, .vnum ['7']), ("zzz".toList, .vbool true)]
    [(kTitle, .vstr ['a'])] rfl kTitle (by decide)⟩

/-- C7: when a status key is present, the validated output keeps the lower-cased
status exactly when it lies in the allowed set, and otherwise carries no status
key at all (no default is substituted). -/
theorem c7_status_rule (d v : Draft) (s : PVal) (h : validate_task_data d = .ok v)
    (hs : dlookup kStatus d = some s) :
    (pyLower (py_str s) ∈ statusVals →
        dlookup kStatus v = some (.vstr (pyLower (py_str s))))
    ∧ (pyLower (py_str s) ∉ statusVals → ∀ e ∈ v, e.1 ≠ kStatus) := by
  obtain ⟨t, _, _, hv⟩ := validate_ok_inv d v h
  have hsp : statusPart d =
      if pyLower (py_str s) ∈ statusVals then [(kStatus, .vstr (pyLower (py_str s)))]
      else [] := by
    unfold statusPart
    rw [hs]
  constructor
  · intro hin
    rw [hv, dlookup_cons, if_neg (show ¬(kTitle = kStatus) by decide),
        skip_seg _ (descPart_keys d) (by decide),
        skip_seg _ (prioPart_keys d) (by decide),
        hsp, if_pos hin, List.singleton_append, dlookup_here]
  · intro hout e he
    rw [hv] at he
    simp only [List.mem_cons, List.mem_append] at he
    rcases he with rfl | he | he | he | he | he | he
    · show ¬(kTitle = kStatus); decide
    · rw [descPart_keys d e he]; decide
    · rw [prioPart_keys d e he]; decide
    · rw [hsp, if_neg hout] at he; simp at he
    · rw [catPart_keys d e he]; decide
    · rw [duePart_keys d e he]; decide
    · rw [tagsPart_keys d e he]; decide

/-- Witness for `c7_status_rule` at a mixed-case valid status. -/
theorem c7_status_rule_witness :
    (pyLower (py_str (PVal.vstr "Pending".toList)) ∈ statusVals →
      dlookup kStatus [(kTitle, PVal.vstr ['a']), (kStatus, PVal.vstr "pending".toList)]
        = some (.vstr (pyLower (py_str (PVal.vstr "Pending".toList)))))
    ∧ (pyLower (py_str (PVal.vstr "Pending".toList)) ∉ statusVals →
      ∀ e ∈ ([(kTitle, PVal.vstr ['a']), (kStatus, PVal.vstr "pending".toList)] : Draft),
        e.1 ≠ kStatus) :=
  c7_status_rule
    [(kTitle, .vstr ['a']), (kStatus, .vstr "Pending".toList)] _ _ rfl rfl

/-- C2 counterexample: a whitespace-only title validates successfully to an
empty-string title, and revalidating that output fails, so
`validate(validate(x))` is not `validate(x)` on every accepted input. -/
theorem c2_not_idempotent :
    validate_task_data [(kTitle, .vstr [' '])] = .ok [(kTitle, .vstr [])]
    ∧ validate_task_data [(kTitle, .vstr [])]
        = .error "Task title is required".toList :=
  ⟨rfl, rfl⟩

/-- Cleanliness condition for the amended idempotence claim: no field value of
the validated mapping is the empty string and no tag is empty. -/
def noEmptyVals (v : Draft) : Bool :=
  v.all (fun e =>
    match e.2 with
    | .vstr s => !s.isEmpty
    | .vlist xs => xs.all (fun t => match t with | .vstr s => !s.isEmpty | _ => true)
    | _ => true)

/-- C2 (amended): `validate_task_data` is idempotent on every accepted input
whose validated output carries no empty-string field or tag value — re-running
the validator on such an output succeeds and returns it unchanged.  (Inputs
whose fields are whitespace-only trim to empty strings, which revalidation
rejects or drops, as the counterexample shows.) -/
theorem c2_revalidate (x v : Draft) (h : validate_task_data x = .ok v)
    (hne : noEmptyVals v = true) : validate_task_data v = .ok v := by
  obtain ⟨t0, hl0, ht0, hv⟩ := validate_ok_inv x v h
  have hall := List.all_eq_true.mp hne
  have htmem : (kTitle, PVal.vstr (pyStrip (py_str t0))) ∈ v := by
    rw [hv]; exact List.mem_cons_self _ _
  have htne0 : (pyStrip (py_str t0)).isEmpty = false := by
    simpa using hall _ htmem
  have hdesc : descPart v = descPart x := by
    rcases descPart_shape x with hd | ⟨ds, hd, hds⟩
    · have hnone : dlookup kDescription v = none := by
        rw [hv, dlookup_cons, if_neg (show ¬(kTitle = kDescription) by decide), hd,
            List.nil_append,
            skip_seg _ (prioPart_keys x) (by decide),
            skip_seg _ (statusPart_keys x) (by decide),
            skip_seg _ (catPart_keys x) (by decide),
            skip_seg _ (duePart_keys x) (by decide),
            dlookup_keys_none (tagsPart_keys x) (by decide)]
      rw [hd]; unfold descPart; rw [hnone]
    · have hsome : dlookup kDescription v = some (.vstr ds) := by
        rw [hv, dlookup_cons, if_neg (show ¬(kTitle = kDescription) by decide), hd,
            List.singleton_append, dlookup_here]
      have hmem : (kDescription, PVal.vstr ds) ∈ v := by
        rw [hv, hd]
        exact List.mem_cons_of_mem _ (List.mem_append_left _ (List.mem_cons_self _ _))
      have hdne : ds.isEmpty = false := by simpa using hall _ hmem
      rw [hd]; unfold descPart; rw [hsome]
      simp [truthy, py_str, hdne, hds]
  have hprio : prioPart v = prioPart x := by
    rcases prioPart_shape x with hp | ⟨p, hp, hpv⟩
    · have hnone : dlookup kPriority v = none := by
        rw [hv, dlookup_cons, if_neg (show ¬(kTitle = kPriority) by decide),
            skip_seg _ (descPart_keys x) (by decide), hp, List.nil_append,
            skip_seg _ (statusPart_keys x) (by decide),
            skip_seg _ (catPart_keys x) (by decide),
            skip_seg _ (duePart_keys x) (by decide),
            dlookup_keys_none (tagsPart_keys x) (by decide)]
      rw [hp]; unfold prioPart; rw [hnone]
    · have hsome : dlookup kPriority v = some (.vstr p) := by
        rw [hv, dlookup_cons, if_neg (show ¬(kTitle = kPriority) by decide),
            skip_seg _ (descPart_keys x) (by decide), hp,
            List.singleton_append, dlookup_here]
      have hfix : pyLower p = p := by
        have hq : ∀ q ∈ prioVals, pyLower q = q := by decide
        exact hq p hpv
      rw [hp]; unfold prioPart; rw [hsome]
      simp [py_str, hfix, hpv]
  have hstatus : statusPart v = statusPart x := by
    rcases statusPart_shape x with hs | ⟨u, hs, huv⟩
    · have hnone : dlookup kStatus v = none := by
        rw [hv, dlookup_cons, if_neg (show ¬(kTitle = kStatus) by decide),
            skip_seg _ (descPart_keys x) (by decide),
            skip_seg _ (prioPart_keys x) (by decide), hs, List.nil_append,
            skip_seg _ (catPart_keys x) (by decide),
            skip_seg _ (duePart_keys x) (by decide),
            dlookup_keys_none (tagsPart_keys x) (by decide)]
      rw [hs]; unfold statusPart; rw [hnone]
    · have hsome : dlookup kStatus v = some (.vstr u) := by
        rw [hv, dlookup_cons, if_neg (show ¬(kTitle = kStatus) by decide),
            skip_seg _ (descPart_keys x) (by decide),
            skip_seg _ (prioPart_keys x) (by decide), hs,
            List.singleton_append, dlookup_here]
      have hfix : pyLower u = u := by
        have hq : ∀ q ∈ statusVals, pyLower q = q := by decide
        exact hq u huv
      rw [hs]; unfold statusPart; rw [hsome]
      simp [py_str, hfix, huv]
  have hcat : catPart v = catPart x := by
    rcases catPart_shape x with hc | ⟨cs, hc, hcs⟩
    · have hnone : dlookup kCategory v = none := by
        rw [hv, dlookup_cons, if_neg (show ¬(kTitle = kCategory) by decide),
            skip_seg _ (descPart_keys x) (by decide),
            skip_seg _ (prioPart_keys x) (by decide),
            skip_seg _ (statusPart_keys x) (by decide), hc, List.nil_append,
            skip_seg _ (duePart_keys x) (by decide),
            dlookup_keys_none (tagsPart_keys x) (by decide)]
      rw [hc]; unfold catPart; rw [hnone]
    · have hsome : dlookup kCategory v = some (.vstr cs) := by
        rw [hv, dlookup_cons, if_neg (show ¬(kTitle = kCategory) by decide),
            skip_seg _ (descPart_keys x) (by decide),
            skip_seg _ (prioPart_keys x) (by decide),
            skip_seg _ (statusPart_keys x) (by decide), hc,
            List.singleton_append, dlookup_here]
      have hmem : (kCategory, PVal.vstr cs) ∈ v := by
        rw [hv, hc]
        refine List.mem_cons_of_mem _ (List.mem_append_right _ ?_)
        refine List.mem_append_right _ ?_
        refine List.mem_append_right _ ?_
        exact List.mem_append_left _ (List.mem_cons_self _ _)
      have hcne : cs.isEmpty = false := by simpa using hall _ hmem
      rw [hc]; unfold catPart; rw [hsome]
      simp [truthy, py_str, hcne, hcs]
  have hdue : duePart v = duePart x := by
    rcases duePart_shape x with hd2 | ⟨u, hd2, hns⟩
    · have hnone : dlookup kDueDate v = none := by
        rw [hv, dlookup_cons, if_neg (show ¬(kTitle = kDueDate) by decide),
            skip_seg _ (descPart_keys x) (by decide),
            skip_seg _ (prioPart_keys x) (by decide),
            skip_seg _ (statusPart_keys x) (by decide),
            skip_seg _ (catPart_keys x) (by decide), hd2, List.nil_append,
            dlookup_keys_none (tagsPart_keys x) (by decide)]
      rw [hd2]; unfold duePart; rw [hnone]
    · have hsome : dlookup kDueDate v = some (.vstr u) := by
        rw [hv, dlookup_cons, if_neg (show ¬(kTitle = kDueDate) by decide),
            skip_seg _ (descPart_keys x) (by decide),
            skip_seg _ (prioPart_keys x) (by decide),
            skip_seg _ (statusPart_keys x) (by decide),
            skip_seg _ (catPart_keys x) (by decide), hd2,
            List.singleton_append, dlookup_here]
      have hmem : (kDueDate, PVal.vstr u) ∈ v := by
        rw [hv, hd2]
        refine List.mem_cons_of_mem _ (List.mem_append_right _ ?_)
        refine List.mem_append_right _ ?_
        refine List.mem_append_right _ ?_
        refine List.mem_append_right _ ?_
        exact List.mem_append_left _ (List.mem_cons_self _ _)
      have hune : u.isEmpty = false := by simpa using hall _ hmem
      rw [hd2]; unfold duePart; rw [hsome]
      simp [truthy, py_str, hune, hns]
  have htags : tagsPart v = tagsPart x := by
    rcases tagsPart_shape x with ht2 | ⟨ts, ht2, hts⟩
    · have hnone : dlookup kTags v = none := by
        rw [hv, dlookup_cons, if_neg (show ¬(kTitle = kTags) by decide),
            skip_seg _ (descPart_keys x) (by decide),
            skip_seg _ (prioPart_keys x) (by decide),
            skip_seg _ (statusPart_keys x) (by decide),
            skip_seg _ (catPart_keys x) (by decide),
            skip_seg _ (duePart_keys x) (by decide), ht2]
        rfl
      rw [ht2]; unfold tagsPart; rw [hnone]
    · have hsome : dlookup kTags v = some (.vlist (ts.map PVal.vstr)) := by
        rw [hv, dlookup_cons, if_neg (show ¬(kTitle = kTags) by decide),
            skip_seg _ (descPart_keys x) (by decide),
            skip_seg _ (prioPart_keys x) (by decide),
            skip_seg _ (statusPart_keys x) (by decide),
            skip_seg _ (catPart_keys x) (by decide),
            skip_seg _ (duePart_keys x) (by decide), ht2, dlookup_here]
      have hmem : (kTags, PVal.vlist (ts.map PVal.vstr)) ∈ v := by
        rw [hv, ht2]
        refine List.mem_cons_of_mem _ (List.mem_append_right _ ?_)
        refine List.mem_append_right _ ?_
        refine List.mem_append_right _ ?_
        refine List.mem_append_right _ ?_
        exact List.mem_append_right _ (List.mem_cons_self _ _)
      have htne : ∀ s ∈ ts, s.isEmpty = false := by
        have hp2 : ((ts.map PVal.vstr).all
            (fun t => match t with | PVal.vstr s => !s.isEmpty | _ => true)) = true := hall _ hmem
        intro s hs
        have hx := List.all_eq_true.mp hp2 _ (List.mem_map_of_mem PVal.vstr hs)
        simpa using hx
      have hfilter : (ts.map PVal.vstr).filter truthy = ts.map PVal.vstr := by
        rw [List.filter_eq_self]
        intro a ha
        obtain ⟨s, hs, rfl⟩ := List.mem_map.mp ha
        simpa [truthy] using htne s hs
      have hmap : (ts.map PVal.vstr).map (fun t => PVal.vstr (pyStrip (py_str t)))
          = ts.map PVal.vstr := by
        rw [List.map_map]
        apply List.map_congr_left
        intro s hs
        simp [Function.comp, py_str, hts s hs]
      rw [ht2]; unfold tagsPart; rw [hsome]
      simp only [hfilter, hmap]
  unfold validate_task_data
  rw [show dlookup kTitle v = some (.vstr (pyStrip (py_str t0))) from by rw [hv, dlookup_here]]
  dsimp only
  rw [if_pos (show truthy (.vstr (pyStrip (py_str t0))) = true by simp [truthy, htne0])]
  rw [hdesc, hprio, hstatus, hcat, hdue, htags]
  conv_rhs => rw [hv]
  simp [py_str, pyStrip_idem, List.append_assoc]

/-- Witness for `c2_revalidate`: the validated output of a populated input
revalidates to itself. -/
theorem c2_revalidate_witness :
    validate_task_data
      [(kTitle, .vstr "Buy milk".toList), (kPriority, .vstr "high".toList),
       (kStatus, .vstr "pending".toList), (kTags, .vlist [.vstr ['a']])]
      = .ok [(kTitle, .vstr "Buy milk".toList), (kPriority, .vstr "high".toList),
             (kStatus, .vstr "pending".toList), (kTags, .vlist [.vstr ['a']])] :=
  c2_revalidate
    [(kTitle, .vstr "Buy milk".toList), (kPriority, .vstr "HIGH".toList),
     (kStatus, .vstr "pending".toList), (kTags, .vlist [.vstr " a ".toList])]
    _ rfl rfl

/-- C8: `extract_priority` returns high whenever a high-priority keyword occurs
in the lower-cased text — even when low-priority keywords also occur — low when
no high keyword occurs but some low keyword does, and medium otherwise; the
result is always one of low, medium, high. -/
theorem c8_priority_rule (text : List Char) :
    (high_keywords.any (fun k => isSubstr k (pyLower text)) = true →
        extract_priority text = "high".toList)
    ∧ (high_keywords.any (fun k => isSubstr k (pyLower text)) = false →
        low_keywords.any (fun k => isSubstr k (pyLower text)) = true →
        extract_priority text = "low".toList)
    ∧ (high_keywords.any (fun k => isSubstr k (pyLower text)) = false →
        low_keywords.any (fun k => isSubstr k (pyLower text)) = false →
        extract_priority text = "medium".toList)
    ∧ extract_priority text ∈ prioVals := by
  refine ⟨fun hh => by simp [extract_priority, hh],
          fun hh hl => by simp [extract_priority, hh, hl],
          fun hh hl => by simp [extract_priority, hh, hl], ?_⟩
  by_cases hh : high_keywords.any (fun k => isSubstr k (pyLower text)) = true
  · simp [extract_priority, hh, prioVals]
  · by_cases hl : low_keywords.any (fun k => isSubstr k (pyLower text)) = true
    · simp [extract_priority, hh, hl, prioVals]
    · simp [extract_priority, hh, hl, prioVals]

/-- Witness for `c8_priority_rule`: "not urgent chore" contains the high keyword
"urgent" as a substring, so the high branch wins over the low keyword. -/
theorem c8_priority_rule_witness :
    high_keywords.any (fun k => isSubstr k (pyLower "not urgent chore".toList)) = true
    ∧ extract_priority "not urgent chore".toList = "high".toList :=
  ⟨by decide, (c8_priority_rule "not urgent chore".toList).1 (by decide)⟩

/-- C6: `find_matching_task` returns the unique matching task's id when exactly
one title contains the keyword case-insensitively, and `None` when zero or at
least two titles do. -/
theorem c6_matching_cardinality (task_match : List Char) (tasks : List PTask) :
    (∀ t, tasks.filter
        (fun t => isSubstr (pyLower task_match) (pyLower (t.title.getD []))) = [t] →
      find_matching_task task_match tasks = some t.id)
    ∧ ((tasks.filter
          (fun t => isSubstr (pyLower task_match) (pyLower (t.title.getD [])))).length = 0
        ∨ 2 ≤ (tasks.filter
          (fun t => isSubstr (pyLower task_match) (pyLower (t.title.getD [])))).length →
      find_matching_task task_match tasks = none) := by
  constructor
  · intro t ht
    unfold find_matching_task
    dsimp only
    rw [ht]
    simp
  · intro hlen
    have hne : (tasks.filter
        (fun t => isSubstr (pyLower task_match) (pyLower (t.title.getD [])))).length ≠ 1 := by
      rcases hlen with h | h <;> omega
    unfold find_matching_task
    dsimp only
    rw [if_neg hne]

/-- Witness for `c6_matching_cardinality`: a unique hit returns that id; two
hits return `None`. -/
theorem c6_matching_cardinality_witness :
    find_matching_task "dentist".toList
        [⟨"7".toList, some "Call dentist".toList⟩] = some "7".toList
    ∧ find_matching_task "milk".toList
        [⟨"1".toList, some "Buy milk".toList⟩,
         ⟨"2".toList, some "Buy oat milk".toList⟩] = none := by
  exact ⟨(c6_matching_cardinality _ _).1 ⟨"7".toList, some "Call dentist".toList⟩ rfl,
         (c6_matching_cardinality _ _).2 (Or.inr (by decide))⟩

theorem isSubstr_nil (s : List Char) : isSubstr [] s = true := by
  unfold isSubstr
  rw [List.any_eq_true]
  exact ⟨s, (List.mem_tails s s).mpr (List.suffix_refl s), by cases s <;> rfl⟩

/-- C10: with the empty keyword every task matches (titles default to the empty
string when absent), so `find_matching_task` returns the sole task's id on
singleton lists and `None` on every other length. -/
theorem c10_empty_match (tasks : List PTask) :
    find_matching_task [] tasks =
      match tasks with
      | [t] => some t.id
      | _ => none := by
  have hfilter : tasks.filter
      (fun t => isSubstr (pyLower []) (pyLower (t.title.getD []))) = tasks := by
    rw [List.filter_eq_self]
    intro a _
    exact isSubstr_nil _
  unfold find_matching_task
  dsimp only
  rw [hfilter]
  cases tasks with
  | nil => simp
  | cons a l =>
      cases l with
      | nil => simp
      | cons b l2 => simp

theorem except_map_error_iff {α β γ} (x : Except γ α) (f : α → β) (e : γ) :
    x.map f = .error e ↔ x = .error e := by
  cases x <;> simp [Except.map]

/-- The model path of `parse_task_nl` yields nothing valid: the transport
errored, the decode failed, or every record of the batch failed validation. -/
def llmNothingValid (llm : Except Unit (List Char)) : Prop :=
  match llm with
  | .error _ => True
  | .ok raw =>
      match parse_task_from_nl raw with
      | none => True
      | some records => validateBatch records = []

/-- C5: every model-path failure — transport error, decode failure, or a batch
in which every record fails validation — makes `parse_task_nl` return the
fallback extractor's validated draft instead of propagating; a batch with at
least one valid record returns exactly the valid records (invalid ones
dropped); and the call errors exactly when the model path yields nothing valid
and the fallback draft also fails validation. -/
theorem c5_fallback_policy (llm : Except Unit (List Char))
    (resolver : List Char → Option (List Char)) (text : List Char) :
    (∀ e, llm = .error e →
        parse_task_nl llm resolver text
          = (validate_task_data (parse_task_metadata resolver text)).map (fun v => [v]))
    ∧ (∀ raw, llm = .ok raw → parse_task_from_nl raw = none →
        parse_task_nl llm resolver text
          = (validate_task_data (parse_task_metadata resolver text)).map (fun v => [v]))
    ∧ (∀ raw records, llm = .ok raw → parse_task_from_nl raw = some records →
        validateBatch records = [] →
        parse_task_nl llm resolver text
          = (validate_task_data (parse_task_metadata resolver text)).map (fun v => [v]))
    ∧ (∀ raw records, llm = .ok raw → parse_task_from_nl raw = some records →
        validateBatch records ≠ [] →
        parse_task_nl llm resolver text = .ok (validateBatch records))
    ∧ ((∃ e, parse_task_nl llm resolver text = .error e) ↔
        (llmNothingValid llm ∧
          ∃ e, validate_task_data (parse_task_metadata resolver text) = .error e)) := by
  refine ⟨?_, ?_, ?_, ?_, ?_⟩
  · rintro e rfl
    rfl
  · rintro raw rfl hdec
    unfold parse_task_nl
    dsimp only
    rw [hdec]
  · rintro raw records rfl hdec hvb
    unfold parse_task_nl
    dsimp only
    rw [hdec]
    dsimp only
    rw [hvb]
    rfl
  · rintro raw records rfl hdec hvb
    unfold parse_task_nl
    dsimp only
    rw [hdec]
    dsimp only
    rw [if_neg (by simpa [List.isEmpty_iff] using hvb)]
  · cases llm with
    | error e =>
        unfold parse_task_nl llmNothingValid
        dsimp only
        constructor
        · rintro ⟨e2, he⟩
          exact ⟨trivial, e2, (except_map_error_iff _ _ e2).mp he⟩
        · rintro ⟨-, e2, he⟩
          exact ⟨e2, (except_map_error_iff _ _ e2).mpr he⟩
    | ok raw =>
        cases hdec : parse_task_from_nl raw with
        | none =>
            unfold parse_task_nl llmNothingValid
            dsimp only
            rw [hdec]
            constructor
            · rintro ⟨e2, he⟩
              exact ⟨trivial, e2, (except_map_error_iff _ _ e2).mp he⟩
            · rintro ⟨-, e2, he⟩
              exact ⟨e2, (except_map_error_iff _ _ e2).mpr he⟩
        | some records =>
            unfold parse_task_nl llmNothingValid
            dsimp only
            rw [hdec]
            dsimp only
            by_cases hvb : validateBatch records = []
            · rw [hvb]
              simp only [List.isEmpty_nil, if_true]
              constructor
              · rintro ⟨e2, he⟩
                exact ⟨by trivial, e2, (except_map_error_iff _ _ e2).mp he⟩
              · rintro ⟨-, e2, he⟩
                exact ⟨e2, (except_map_error_iff _ _ e2).mpr he⟩
            · rw [if_neg (by simpa [List.isEmpty_iff] using hvb)]
              constructor
              · rintro ⟨e2, he⟩
                exact absurd he (by simp)
              · rintro ⟨hv, -⟩
                exact absurd hv hvb

/-- Witness for `c5_fallback_policy`: a transport error falls back to the
deterministic extractor, whose validated draft is returned. -/
theorem c5_fallback_policy_witness :
    parse_task_nl (.error ()) (fun _ => none) "Call mom".toList
      = (validate_task_data (parse_task_metadata (fun _ => none) "Call mom".toList)).map
          (fun v => [v])
    ∧ parse_task_nl (.error ()) (fun _ => none) "Call mom".toList
      = .ok [[(kTitle, .vstr "Call mom".toList), (kPriority, .vstr "medium".toList),
              (kCategory, .vstr "social".toList), (kTags, .vlist [])]] :=
  ⟨(c5_fallback_policy _ _ _).1 () rfl, rfl⟩

/-- C4 counterexample: with both spans present and the array span first, an
unparseable array span makes the decoder fall through and return the object
span's contents, so the claim's unconditional "parses and returns the array
span's contents" fails. -/
theorem c4_falls_through_to_object :
    json_loads (pyStrip "[x] \x7b\"a\":1\x7d".toList) = none
    ∧ pyFind '[' (pyStrip "[x] \x7b\"a\":1\x7d".toList) = some 0
    ∧ pyRfind ']' (pyStrip "[x] \x7b\"a\":1\x7d".toList) = some 2
    ∧ pyFind obraceC (pyStrip "[x] \x7b\"a\":1\x7d".toList) = some 4
    ∧ pyRfind cbraceC (pyStrip "[x] \x7b\"a\":1\x7d".toList) = some 10
    ∧ json_loads (pySlice 0 3 (pyStrip "[x] \x7b\"a\":1\x7d".toList)) = none
    ∧ parse_task_from_nl "[x] \x7b\"a\":1\x7d".toList
        = some [PVal.vdict [("a".toList, PVal.vnum ['1'])]] :=
  ⟨rfl, rfl, rfl, rfl, rfl, rfl, rfl⟩

/-- C4 (amended): when the direct parse fails, both spans exist with the array
span starting strictly first, and the array span parses as a JSON array, the
decoder returns that array's contents rather than the object span's; a failed
array-span parse instead falls through to the object span. -/
theorem c4_array_preference (t : List Char) (bs be os oe : Nat) (xs : List PVal)
    (hnf1 : containsSub fenceJson (pyStrip t) = false)
    (hnf2 : containsSub fenceBare (pyStrip t) = false)
    (hdirect : json_loads (pyStrip t) = none)
    (hbs : pyFind '[' (pyStrip t) = some bs)
    (hbe : pyRfind ']' (pyStrip t) = some be)
    (hos : pyFind obraceC (pyStrip t) = some os)
    (hoe : pyRfind cbraceC (pyStrip t) = some oe)
    (hlt : bs < be) (hfirst : bs < os)
    (harr : json_loads (pySlice bs (be + 1) (pyStrip t)) = some (.vlist xs)) :
    parse_task_from_nl t = some xs := by
  unfold parse_task_from_nl
  simp only [hnf1, hnf2, Bool.false_eq_true, if_false]
  rw [hdirect]
  dsimp only
  rw [hbs, hbe, hos, hoe]
  dsimp only
  rw [if_pos (by simp [hlt, hfirst, Option.getD])]
  rw [harr]

/-- Witness for `c4_array_preference`: prose around an array and a later object
yields the array's elements. -/
theorem c4_array_preference_witness :
    parse_task_from_nl "see [1, 2] and \x7b\"a\":3\x7d end".toList
      = some [PVal.vnum ['1'], PVal.vnum ['2']] :=
  c4_array_preference _ 4 9 15 21 _ rfl rfl rfl rfl rfl rfl rfl (by decide) (by decide) rfl

/-- The backtick character (fence marker head). -/
def btC : Char := Char.ofNat 96

/-- Characters of surrounding prose that cannot disturb the decoder's span
recovery: no brackets, braces, double quote, or backtick. -/
def safeChar (c : Char) : Bool :=
  c ≠ '[' && c ≠ ']' && c ≠ obraceC && c ≠ cbraceC && c ≠ '"' && c ≠ btC

/-- Characters allowed in a `plainJ` string: no quote, no backslash, no control
characters, no backtick. -/
def plainChar (c : Char) : Bool :=
  c ≠ '"' && c ≠ '\\' && 32 ≤ c.toNat && c ≠ btC

mutual

/-- Valid JSON values whose text needs no escapes: strings (and keys) avoid the
quote, backslash, control characters and backticks, and number spans are
well-started runs of number characters.  Exactly the documents on which the
`json_loads` model coincides with Python's `json.loads`. -/
def plainJ : PVal → Bool
  | .vnone => true
  | .vbool _ => true
  | .vnum d => (match d with | [] => false | c :: _ => numStart c) && d.all numChar
  | .vstr s => s.all plainChar
  | .vlist xs => plainItems xs
  | .vdict fs => plainFields fs

/-- `plainJ` over a list of array elements. -/
def plainItems : List PVal → Bool
  | [] => true
  | x :: xs => plainJ x && plainItems xs

/-- `plainJ` over object fields (keys are escape-free strings too). -/
def plainFields : List (List Char × PVal) → Bool
  | [] => true
  | e :: fs => e.1.all plainChar && plainJ e.2 && plainFields fs

end

mutual

/-- Serialize a JSON value: the canonical spacing-free document text. -/
def serJ : PVal → List Char
  | .vnone => "null".toList
  | .vbool true => "true".toList
  | .vbool false => "false".toList
  | .vnum d => d
  | .vstr s => '"' :: (s ++ ['"'])
  | .vlist xs => '[' :: (serItems xs ++ [']'])
  | .vdict fs => obraceC :: (serFields fs ++ [cbraceC])

/-- Comma-separated serialized elements. -/
def serItems : List PVal → List Char
  | [] => []
  | [x] => serJ x
  | x :: xs => serJ x ++ ',' :: serItems xs

/-- Comma-separated serialized `"key":value` fields. -/
def serFields : List (List Char × PVal) → List Char
  | [] => []
  | [e] => '"' :: (e.1 ++ '"' :: ':' :: serJ e.2)
  | e :: fs => ('"' :: (e.1 ++ '"' :: ':' :: serJ e.2)) ++ ',' :: serFields fs

end

theorem digit_facts (c : Char) (h : c.isDigit = true) :
    jWs c = false ∧ c ≠ ']' ∧ c ≠ cbraceC ∧ c ≠ ',' ∧ c ≠ ':' ∧ c ≠ '"'
      ∧ c ≠ '[' ∧ c ≠ obraceC := by
  refine ⟨?_, ?_, ?_, ?_, ?_, ?_, ?_, ?_⟩
  · simp only [jWs, Bool.or_eq_false_iff, decide_eq_false_iff_not]
    refine ⟨⟨⟨?_, ?_⟩, ?_⟩, ?_⟩ <;> (rintro rfl; exact absurd h (by decide))
  all_goals (rintro rfl; exact absurd h (by decide))

theorem numStart_facts (c : Char) (h : numStart c = true) :
    jWs c = false ∧ c ≠ ']' ∧ c ≠ cbraceC := by
  have hd : c.isDigit = true ∨ c = '-' := by
    simpa [numStart, Bool.or_eq_true] using h
  rcases hd with hd | rfl
  · obtain ⟨h1, h2, h3, -⟩ := digit_facts c hd
    exact ⟨h1, h2, h3⟩
  · exact ⟨by decide, by decide, by decide⟩

/-- The first character of any serialized plain value: never whitespace and
never a closer. -/
theorem serJ_head (v : PVal) (hp : plainJ v = true) :
    ∃ c m, serJ v = c :: m ∧ jWs c = false ∧ c ≠ ']' ∧ c ≠ cbraceC := by
  cases v with
  | vnone => exact ⟨'n', _, rfl, by decide, by decide, by decide⟩
  | vbool b =>
      cases b
      · exact ⟨'f', "alse".toList, rfl, by decide, by decide, by decide⟩
      · exact ⟨'t', "rue".toList, rfl, by decide, by decide, by decide⟩
  | vstr s => exact ⟨'"', _, rfl, by decide, by decide, by decide⟩
  | vlist xs => exact ⟨'[', _, rfl, by decide, by decide, by decide⟩
  | vdict fs => exact ⟨obraceC, _, rfl, by decide, by decide, by decide⟩
  | vnum d =>
      cases d with
      | nil => exact absurd hp (by simp [plainJ])
      | cons c m =>
          have hns : numStart c = true := by
            have := hp
            simp only [plainJ, Bool.and_eq_true] at this
            exact this.1
          obtain ⟨h1, h2, h3⟩ := numStart_facts c hns
          exact ⟨c, m, rfl, h1, h2, h3⟩

theorem serJ_arr_last (xs : List PVal) : (serJ (.vlist xs)).getLast? = some ']' := by
  rw [show serJ (.vlist xs) = '[' :: (serItems xs ++ [']']) from rfl, ← List.cons_append]
  exact List.getLast?_concat _

theorem serJ_dict_last (fs : List (List Char × PVal)) :
    (serJ (.vdict fs)).getLast? = some cbraceC := by
  rw [show serJ (.vdict fs) = obraceC :: (serFields fs ++ [cbraceC]) from rfl,
      ← List.cons_append]
  exact List.getLast?_concat _

theorem band_mp {a b : Bool} (h : (a && b) = true) : a = true ∧ b = true := by
  simp only [Bool.and_eq_true] at h
  exact h

mutual

theorem serJ_no_bt : ∀ v : PVal, plainJ v = true → btC ∉ serJ v
  | .vnone, _ => by decide
  | .vbool true, _ => by decide
  | .vbool false, _ => by decide
  | .vnum d, hp => by
      intro hm
      have hall : d.all numChar = true := by
        simp only [plainJ, Bool.and_eq_true] at hp
        exact hp.2
      have hx := List.all_eq_true.mp hall _ hm
      exact absurd hx (by decide)
  | .vstr s, hp => by
      intro hm
      have hp' : s.all plainChar = true := hp
      rw [show serJ (.vstr s) = '"' :: (s ++ ['"']) from rfl] at hm
      rcases List.mem_cons.mp hm with h | h
      · exact absurd h (by decide)
      · rcases List.mem_append.mp h with h | h
        · have hx := List.all_eq_true.mp hp' _ h
          exact absurd hx (by decide)
        · simp at h
          exact absurd h (by decide)
  | .vlist xs, hp => by
      intro hm
      rw [show serJ (.vlist xs) = '[' :: (serItems xs ++ [']']) from rfl] at hm
      rcases List.mem_cons.mp hm with h | h
      · exact absurd h (by decide)
      · rcases List.mem_append.mp h with h | h
        · exact serItems_no_bt xs hp h
        · simp at h
          exact absurd h (by decide)
  | .vdict fs, hp => by
      intro hm
      rw [show serJ (.vdict fs) = obraceC :: (serFields fs ++ [cbraceC]) from rfl] at hm
      rcases List.mem_cons.mp hm with h | h
      · exact absurd h (by decide)
      · rcases List.mem_append.mp h with h | h
        · exact serFields_no_bt fs hp h
        · simp at h
          exact absurd h (by decide)
termination_by v => sizeOf v

theorem serItems_no_bt : ∀ xs : List PVal, plainItems xs = true → btC ∉ serItems xs
  | [], _ => by simp [serItems]
  | [x], hp => by
      have hp' : (plainJ x && plainItems []) = true := hp
      rw [show serItems [x] = serJ x from rfl]
      exact serJ_no_bt x (band_mp hp').1
  | x :: y :: t, hp => by
      have hp' : (plainJ x && plainItems (y :: t)) = true := hp
      intro hm
      rw [show serItems (x :: y :: t) = serJ x ++ ',' :: serItems (y :: t) from rfl] at hm
      rcases List.mem_append.mp hm with h | h
      · exact serJ_no_bt x (band_mp hp').1 h
      · rcases List.mem_cons.mp h with h | h
        · exact absurd h (by decide)
        · exact serItems_no_bt (y :: t) (band_mp hp').2 h
termination_by xs => sizeOf xs

theorem serFields_no_bt :
    ∀ fs : List (List Char × PVal), plainFields fs = true → btC ∉ serFields fs
  | [], _ => by simp [serFields]
  | [(k, w)], hp => by
      have hp' : (k.all plainChar && plainJ w && plainFields []) = true := hp
      intro hm
      rw [show serFields [(k, w)] = '"' :: (k ++ '"' :: ':' :: serJ w) from rfl] at hm
      rcases List.mem_cons.mp hm with h | h
      · exact absurd h (by decide)
      · rcases List.mem_append.mp h with h | h
        · have hx := List.all_eq_true.mp (band_mp (band_mp hp').1).1 _ h
          exact absurd hx (by decide)
        · rcases List.mem_cons.mp h with h | h
          · exact absurd h (by decide)
          · rcases List.mem_cons.mp h with h | h
            · exact absurd h (by decide)
            · exact serJ_no_bt w (band_mp (band_mp hp').1).2 h
  | (k, w) :: f :: t, hp => by
      have hp' : (k.all plainChar && plainJ w && plainFields (f :: t)) = true := hp
      intro hm
      rw [show serFields ((k, w) :: f :: t)
          = ('"' :: (k ++ '"' :: ':' :: serJ w)) ++ ',' :: serFields (f :: t)
          from rfl] at hm
      rcases List.mem_append.mp hm with h | h
      · rcases List.mem_cons.mp h with h | h
        · exact absurd h (by decide)
        · rcases List.mem_append.mp h with h | h
          · have hx := List.all_eq_true.mp (band_mp (band_mp hp').1).1 _ h
            exact absurd hx (by decide)
          · rcases List.mem_cons.mp h with h | h
            · exact absurd h (by decide)
            · rcases List.mem_cons.mp h with h | h
              · exact absurd h (by decide)
              · exact serJ_no_bt w (band_mp (band_mp hp').1).2 h
      · rcases List.mem_cons.mp h with h | h
        · exact absurd h (by decide)
        · exact serFields_no_bt (f :: t) (band_mp hp').2 h
termination_by fs => sizeOf fs

end

theorem dropWhile_head_ne {p : Char → Bool} {l : List Char} {c : Char}
    (h : l.head? = some c) (hc : p c = false) : l.dropWhile p = l := by
  cases l with
  | nil => rfl
  | cons x t =>
      cases h
      rw [List.dropWhile_cons, if_neg (by simp [hc])]

theorem dropWhile_append_headne {p : Char → Bool} (x y : List Char) (c : Char)
    (hy : y.head? = some c) (hc : p c = false) :
    (x ++ y).dropWhile p = x.dropWhile p ++ y := by
  rw [List.dropWhile_append]
  by_cases he : (x.dropWhile p).isEmpty
  · rw [if_pos he, dropWhile_head_ne hy hc]
    rw [List.isEmpty_iff] at he
    rw [he, List.nil_append]
  · rw [if_neg he]

theorem pyStrip_mid (a m b : List Char) (c1 c2 : Char)
    (hc1 : m.head? = some c1) (hp1 : pySpace c1 = false)
    (hc2 : m.getLast? = some c2) (hp2 : pySpace c2 = false) :
    pyStrip (a ++ m ++ b)
      = a.dropWhile pySpace ++ m ++ (b.reverse.dropWhile pySpace).reverse := by
  unfold pyStrip
  have hmb : (m ++ b).head? = some c1 := by
    rw [List.head?_append, hc1]
    rfl
  have hL : (a ++ m ++ b).dropWhile pySpace = a.dropWhile pySpace ++ (m ++ b) := by
    rw [List.append_assoc]
    exact dropWhile_append_headne a (m ++ b) c1 hmb hp1
  rw [hL]
  have hrev : (a.dropWhile pySpace ++ (m ++ b)).reverse
      = b.reverse ++ (m.reverse ++ (a.dropWhile pySpace).reverse) := by
    rw [List.reverse_append, List.reverse_append]
    rw [List.append_assoc]
  rw [hrev]
  have hmah : (m.reverse ++ (a.dropWhile pySpace).reverse).head? = some c2 := by
    rw [List.head?_append, List.head?_reverse, hc2]
    rfl
  rw [dropWhile_append_headne _ _ c2 hmah hp2]
  rw [List.reverse_append, List.reverse_append, List.reverse_reverse, List.reverse_reverse]
  try rw [List.append_assoc]

theorem mem_trimL {x : Char} {l : List Char} (h : x ∈ l.dropWhile pySpace) : x ∈ l :=
  (List.dropWhile_suffix pySpace).mem h

theorem mem_trimR {x : Char} {l : List Char} (h : x ∈ (l.reverse.dropWhile pySpace).reverse) :
    x ∈ l := by
  rw [List.mem_reverse] at h
  have := (List.dropWhile_suffix pySpace).mem h
  rwa [List.mem_reverse] at this

theorem mem_pyStrip {x : Char} {l : List Char} (h : x ∈ pyStrip l) : x ∈ l :=
  mem_trimL (mem_trimR (by simpa [pyStrip] using h))

theorem skipJWs_cons {c : Char} {r : List Char} (hc : jWs c = false) :
    skipJWs (c :: r) = c :: r := by
  unfold skipJWs
  rw [List.dropWhile_cons, if_neg (by simp [hc])]

theorem readJStr_ser (s : List Char) (rest : List Char) (hs : '"' ∉ s) :
    readJStr (s ++ '"' :: rest) = some (s, rest) := by
  induction s with
  | nil => rfl
  | cons c t ih =>
      have hc : c ≠ '"' := fun h => hs (h ▸ List.mem_cons_self c t)
      rw [List.cons_append]
      unfold readJStr
      rw [if_neg hc, ih (fun h => hs (List.mem_cons_of_mem c h))]

theorem span_append {p : Char → Bool} (d rest : List Char)
    (hd : ∀ x ∈ d, p x = true) (hr : ∀ c, rest.head? = some c → p c = false) :
    (d ++ rest).takeWhile p = d ∧ (d ++ rest).dropWhile p = rest := by
  induction d with
  | nil =>
      constructor
      · cases rest with
        | nil => rfl
        | cons c t => simp [List.takeWhile_cons, hr c rfl]
      · cases rest with
        | nil => rfl
        | cons c t => simp [List.dropWhile_cons, hr c rfl]
  | cons x t ih =>
      have hx : p x = true := hd x (List.mem_cons_self x t)
      obtain ⟨h1, h2⟩ := ih (fun y hy => hd y (List.mem_cons_of_mem x hy))
      constructor
      · rw [List.cons_append, List.takeWhile_cons, if_pos (by simp [hx]), h1]
      · rw [List.cons_append, List.dropWhile_cons, if_pos (by simp [hx]), h2]

theorem numStart_more (c : Char) (h : numStart c = true) :
    c ≠ '"' ∧ c ≠ '[' ∧ c ≠ obraceC ∧ jWs c = false := by
  have hd : c.isDigit = true ∨ c = '-' := by
    simpa [numStart, Bool.or_eq_true] using h
  rcases hd with hd | rfl
  · obtain ⟨h1, -, -, -, -, h6, h7, h8⟩ := digit_facts c hd
    exact ⟨h6, h7, h8, h1⟩
  · exact ⟨by decide, by decide, by decide, by decide⟩

theorem serItems_single (x : PVal) : serItems [x] = serJ x := rfl

theorem serItems_cons2 (x y : PVal) (t : List PVal) :
    serItems (x :: y :: t) = serJ x ++ ',' :: serItems (y :: t) := rfl

theorem serFields_single (k : List Char) (w : PVal) :
    serFields [(k, w)] = '"' :: (k ++ '"' :: ':' :: serJ w) := rfl

theorem serFields_cons2 (k : List Char) (w : PVal) (f : List Char × PVal)
    (t : List (List Char × PVal)) :
    serFields ((k, w) :: f :: t)
      = ('"' :: (k ++ '"' :: ':' :: serJ w)) ++ ',' :: serFields (f :: t) := rfl

/-- A remainder that cannot extend a serialized number span: empty or headed by
a non-number character; every JSON delimiter and whitespace qualifies. -/
def restDelim : List Char → Bool
  | [] => true
  | c :: _ => !numChar c

/-- Number-span side condition of the round trip, vacuous for non-numbers. -/
def numOK (v : PVal) (rest : List Char) : Prop :=
  ∀ d, v = .vnum d → restDelim rest = true

theorem parseJVal_step (f : Nat) (cs : List Char) :
    parseJVal (f+1) cs =
      (match skipJWs cs with
      | [] => none
      | c :: r =>
        if c = '"' then
          match readJStr r with
          | some (s, r2) => some (.vstr s, r2)
          | none => none
        else if c = '[' then
          match skipJWs r with
          | [] => none
          | c2 :: r2 =>
              if c2 = ']' then some (.vlist [], r2)
              else
                match parseJItems f (c2 :: r2) with
                | some (xs, r3) => some (.vlist xs, r3)
                | none => none
        else if c = obraceC then
          match skipJWs r with
          | [] => none
          | c2 :: r2 =>
              if c2 = cbraceC then some (.vdict [], r2)
              else
                match parseJFields f (c2 :: r2) with
                | some (fs, r3) => some (.vdict fs, r3)
                | none => none
        else if numStart c then
          some (.vnum (c :: r.takeWhile numChar), r.dropWhile numChar)
        else if c = 't' then
          match r with
          | 'r' :: 'u' :: 'e' :: r2 => some (.vbool true, r2)
          | _ => none
        else if c = 'f' then
          match r with
          | 'a' :: 'l' :: 's' :: 'e' :: r2 => some (.vbool false, r2)
          | _ => none
        else if c = 'n' then
          match r with
          | 'u' :: 'l' :: 'l' :: r2 => some (.vnone, r2)
          | _ => none
        else none) := rfl

theorem parseJItems_step (f : Nat) (cs : List Char) :
    parseJItems (f+1) cs =
      (match parseJVal f cs with
      | none => none
      | some (v, r) =>
        match skipJWs r with
        | [] => none
        | c :: r2 =>
            if c = ',' then
              match parseJItems f r2 with
              | some (xs, r3) => some (v :: xs, r3)
              | none => none
            else if c = ']' then some ([v], r2)
            else none) := rfl

theorem parseJFields_step (f : Nat) (cs : List Char) :
    parseJFields (f+1) cs =
      (match skipJWs cs with
      | [] => none
      | c :: r =>
        if c = '"' then
          match readJStr r with
          | some (k, r1) =>
            match skipJWs r1 with
            | [] => none
            | c2 :: r2 =>
              if c2 = ':' then
                match parseJVal f r2 with
                | some (v, r3) =>
                  match skipJWs r3 with
                  | [] => none
                  | c3 :: r4 =>
                      if c3 = ',' then
                        match parseJFields f r4 with
                        | some (fs, r5) => some ((k, v) :: fs, r5)
                        | none => none
                      else if c3 = cbraceC then some ([(k, v)], r4)
                      else none
                | none => none
              else none
          | none => none
        else none) := rfl

mutual

theorem rtVal : ∀ (v : PVal) (fuel : Nat) (rest : List Char),
    plainJ v = true → (serJ v).length < fuel → numOK v rest →
    parseJVal fuel (serJ v ++ rest) = some (v, rest)
  | .vnone, fuel, rest, _, hf, _ => by
      cases fuel with
      | zero => exact absurd hf (Nat.not_lt_zero _)
      | succ f => rfl
  | .vbool true, fuel, rest, _, hf, _ => by
      cases fuel with
      | zero => exact absurd hf (Nat.not_lt_zero _)
      | succ f => rfl
  | .vbool false, fuel, rest, _, hf, _ => by
      cases fuel with
      | zero => exact absurd hf (Nat.not_lt_zero _)
      | succ f => rfl
  | .vnum d, fuel, rest, hp, hf, hnum => by
      cases fuel with
      | zero => exact absurd hf (Nat.not_lt_zero _)
      | succ f =>
          cases d with
          | nil => exact absurd hp (by decide)
          | cons c t =>
              have hp' : (numStart c && (c :: t).all numChar) = true := hp
              obtain ⟨hns, hall⟩ := band_mp hp'
              obtain ⟨hq, hbk, hbr, hws⟩ := numStart_more c hns
              have hdelim := hnum (c :: t) rfl
              have hspan := span_append (p := numChar) t rest
                (fun y hy => List.all_eq_true.mp hall y (List.mem_cons_of_mem c hy))
                (fun c2 hc2 => by
                  cases rest with
                  | nil => simp at hc2
                  | cons r0 rr =>
                      cases hc2
                      simpa [restDelim] using hdelim)
              show parseJVal (f+1) ((c :: t) ++ rest) = some (.vnum (c :: t), rest)
              rw [List.cons_append, parseJVal_step,
                  skipJWs_cons hws]
              dsimp only
              rw [if_neg hq, if_neg hbk, if_neg hbr, if_pos hns, hspan.1, hspan.2]
  | .vstr s, fuel, rest, hp, hf, _ => by
      cases fuel with
      | zero => exact absurd hf (Nat.not_lt_zero _)
      | succ f =>
          have hp' : s.all plainChar = true := hp
          have hq : '"' ∉ s := fun hm =>
            absurd (List.all_eq_true.mp hp' _ hm) (by decide)
          show parseJVal (f+1) (('"' :: (s ++ ['"'])) ++ rest) = some (.vstr s, rest)
          rw [List.cons_append, parseJVal_step, skipJWs_cons (by decide)]
          dsimp only
          rw [if_pos rfl, List.append_assoc, List.singleton_append, readJStr_ser s rest hq]
  | .vlist [], fuel, rest, _, hf, _ => by
      cases fuel with
      | zero => exact absurd hf (Nat.not_lt_zero _)
      | succ f => rfl
  | .vlist (x :: xs), fuel, rest, hp, hf, _ => by
      cases fuel with
      | zero => exact absurd hf (Nat.not_lt_zero _)
      | succ f =>
          have hp' : (plainJ x && plainItems xs) = true := hp
          obtain ⟨c0, m0, hx0, hws0, hbr0, hbc0⟩ := serJ_head x (band_mp hp').1
          have htl : ∃ tl, serItems (x :: xs) = c0 :: tl := by
            cases xs with
            | nil => exact ⟨m0, by rw [serItems_single, hx0]⟩
            | cons y t =>
                exact ⟨m0 ++ ',' :: serItems (y :: t), by rw [serItems_cons2, hx0]; rfl⟩
          obtain ⟨tl, htl⟩ := htl
          have hlen : (serItems (x :: xs)).length + 1 < f := by
            have h1 : (serJ (.vlist (x :: xs))).length
                = (serItems (x :: xs)).length + 2 := by
              rw [show serJ (.vlist (x :: xs))
                  = '[' :: (serItems (x :: xs) ++ [']']) from rfl]
              simp
            omega
          show parseJVal (f+1) (('[' :: (serItems (x :: xs) ++ [']'])) ++ rest)
              = some (.vlist (x :: xs), rest)
          rw [List.cons_append, parseJVal_step, skipJWs_cons (by decide)]
          dsimp only
          rw [if_neg (by decide), if_pos rfl, List.append_assoc, List.singleton_append]
          rw [show serItems (x :: xs) ++ ']' :: rest = c0 :: (tl ++ ']' :: rest) from by
            rw [htl]; rfl]
          rw [skipJWs_cons hws0]
          dsimp only
          rw [if_neg hbr0]
          rw [show c0 :: (tl ++ ']' :: rest) = serItems (x :: xs) ++ ']' :: rest from by
            rw [htl]; rfl]
          rw [rtItems x xs f rest hp hlen]
  | .vdict [], fuel, rest, _, hf, _ => by
      cases fuel with
      | zero => exact absurd hf (Nat.not_lt_zero _)
      | succ f => rfl
  | .vdict ((k, w) :: fs), fuel, rest, hp, hf, _ => by
      cases fuel with
      | zero => exact absurd hf (Nat.not_lt_zero _)
      | succ f =>
          have htl : ∃ tl, serFields ((k, w) :: fs) = '"' :: tl := by
            cases fs with
            | nil => exact ⟨k ++ '"' :: ':' :: serJ w, by rw [serFields_single]⟩
            | cons g t =>
                obtain ⟨k2, w2⟩ := g
                exact ⟨(k ++ '"' :: ':' :: serJ w) ++ ',' :: serFields ((k2, w2) :: t), by
                  rw [serFields_cons2]; rfl⟩
          obtain ⟨tl, htl⟩ := htl
          have hlen : (serFields ((k, w) :: fs)).length + 1 < f := by
            have h1 : (serJ (.vdict ((k, w) :: fs))).length
                = (serFields ((k, w) :: fs)).length + 2 := by
              rw [show serJ (.vdict ((k, w) :: fs))
                  = obraceC :: (serFields ((k, w) :: fs) ++ [cbraceC]) from rfl]
              simp
            omega
          show parseJVal (f+1)
              ((obraceC :: (serFields ((k, w) :: fs) ++ [cbraceC])) ++ rest)
              = some (.vdict ((k, w) :: fs), rest)
          rw [List.cons_append, parseJVal_step, skipJWs_cons (by decide)]
          dsimp only
          rw [if_neg (by decide), if_neg (by decide), if_pos rfl,
              List.append_assoc, List.singleton_append]
          rw [show serFields ((k, w) :: fs) ++ cbraceC :: rest
              = '"' :: (tl ++ cbraceC :: rest) from by rw [htl]; rfl]
          rw [skipJWs_cons (by decide)]
          dsimp only
          rw [if_neg (by decide)]
          rw [show '"' :: (tl ++ cbraceC :: rest)
              = serFields ((k, w) :: fs) ++ cbraceC :: rest from by rw [htl]; rfl]
          rw [rtFields k w fs f rest hp hlen]
termination_by v => sizeOf v

theorem rtItems : ∀ (x : PVal) (xs : List PVal) (fuel : Nat) (rest : List Char),
    plainItems (x :: xs) = true → (serItems (x :: xs)).length + 1 < fuel →
    parseJItems fuel (serItems (x :: xs) ++ ']' :: rest) = some (x :: xs, rest)
  | x, [], fuel, rest, hp, hf => by
      cases fuel with
      | zero => exact absurd hf (Nat.not_lt_zero _)
      | succ f =>
          have hp' : (plainJ x && plainItems []) = true := hp
          have hfx : (serJ x).length < f := by
            rw [serItems_single] at hf
            omega
          rw [serItems_single, parseJItems_step,
              rtVal x f (']' :: rest) (band_mp hp').1 hfx (fun d _ => rfl)]
          dsimp only
          rw [skipJWs_cons (by decide)]
          dsimp only
          rw [if_neg (by decide), if_pos rfl]
  | x, y :: t, fuel, rest, hp, hf => by
      cases fuel with
      | zero => exact absurd hf (Nat.not_lt_zero _)
      | succ f =>
          have hp' : (plainJ x && plainItems (y :: t)) = true := hp
          have hlen : (serItems (x :: y :: t)).length
              = (serJ x).length + 1 + (serItems (y :: t)).length := by
            rw [serItems_cons2]
            simp
            omega
          have hfx : (serJ x).length < f := by omega
          have hfy : (serItems (y :: t)).length + 1 < f := by omega
          rw [serItems_cons2, List.append_assoc, List.cons_append, parseJItems_step,
              rtVal x f (',' :: (serItems (y :: t) ++ ']' :: rest)) (band_mp hp').1 hfx
                (fun d _ => rfl)]
          dsimp only
          rw [skipJWs_cons (by decide)]
          dsimp only
          rw [if_pos rfl, rtItems y t f rest (band_mp hp').2 hfy]
termination_by x xs => sizeOf x + sizeOf xs + 1

theorem rtFields : ∀ (k : List Char) (w : PVal) (fs : List (List Char × PVal))
    (fuel : Nat) (rest : List Char),
    plainFields ((k, w) :: fs) = true → (serFields ((k, w) :: fs)).length + 1 < fuel →
    parseJFields fuel (serFields ((k, w) :: fs) ++ cbraceC :: rest)
      = some ((k, w) :: fs, rest)
  | k, w, [], fuel, rest, hp, hf => by
      cases fuel with
      | zero => exact absurd hf (Nat.not_lt_zero _)
      | succ f =>
          have hp' : (k.all plainChar && plainJ w && plainFields []) = true := hp
          have hk : '"' ∉ k := fun hm =>
            absurd (List.all_eq_true.mp (band_mp (band_mp hp').1).1 _ hm) (by decide)
          have hfw : (serJ w).length < f := by
            have h1 : (serFields [(k, w)]).length = k.length + (serJ w).length + 3 := by
              rw [serFields_single]
              simp
              omega
            omega
          rw [serFields_single, List.cons_append, parseJFields_step,
              skipJWs_cons (by decide)]
          dsimp only
          rw [if_pos rfl, List.append_assoc]
          rw [show ('"' :: ':' :: serJ w) ++ cbraceC :: rest
              = '"' :: (':' :: (serJ w ++ cbraceC :: rest)) from rfl]
          rw [readJStr_ser k _ hk]
          dsimp only
          rw [skipJWs_cons (by decide)]
          dsimp only
          rw [if_pos rfl,
              rtVal w f (cbraceC :: rest) (band_mp (band_mp hp').1).2 hfw
                (fun d _ => rfl)]
          dsimp only
          rw [skipJWs_cons (by decide)]
          dsimp only
          rw [if_neg (by decide), if_pos rfl]
  | k, w, (k2, w2) :: t, fuel, rest, hp, hf => by
      cases fuel with
      | zero => exact absurd hf (Nat.not_lt_zero _)
      | succ f =>
          have hp' : (k.all plainChar && plainJ w && plainFields ((k2, w2) :: t)) = true := hp
          have hk : '"' ∉ k := fun hm =>
            absurd (List.all_eq_true.mp (band_mp (band_mp hp').1).1 _ hm) (by decide)
          have hlen : (serFields ((k, w) :: (k2, w2) :: t)).length
              = k.length + (serJ w).length + 4 + (serFields ((k2, w2) :: t)).length := by
            rw [serFields_cons2]
            simp
            omega
          have hfw : (serJ w).length < f := by omega
          have hft : (serFields ((k2, w2) :: t)).length + 1 < f := by omega
          rw [serFields_cons2, List.append_assoc, List.cons_append, parseJFields_step,
              skipJWs_cons (by decide)]
          dsimp only
          rw [if_pos rfl, List.append_assoc]
          rw [show ('"' :: ':' :: serJ w)
                ++ (',' :: serFields ((k2, w2) :: t) ++ cbraceC :: rest)
              = '"' :: (':' :: (serJ w
                ++ (',' :: (serFields ((k2, w2) :: t) ++ cbraceC :: rest)))) from by
            simp]
          rw [readJStr_ser k _ hk]
          dsimp only
          rw [skipJWs_cons (by decide)]
          dsimp only
          rw [if_pos rfl,
              rtVal w f (',' :: (serFields ((k2, w2) :: t) ++ cbraceC :: rest))
                (band_mp (band_mp hp').1).2 hfw (fun d _ => rfl)]
          dsimp only
          rw [skipJWs_cons (by decide)]
          dsimp only
          rw [if_pos rfl, rtFields k2 w2 t f rest (band_mp hp').2 hft]
termination_by _ w fs => sizeOf w + sizeOf fs + 1

end

theorem jWs_cases (x : Char) (h : jWs x = true) :
    x = ' ' ∨ x = '\t' ∨ x = '\n' ∨ x = '\r' := by
  simpa [jWs, Bool.or_eq_true, or_assoc] using h

theorem jWs_not_brackets (x : Char) (h : jWs x = true) : x ≠ '[' ∧ x ≠ obraceC := by
  rcases jWs_cases x h with rfl | rfl | rfl | rfl <;> exact ⟨by decide, by decide⟩

theorem jWs_pySpace (x : Char) (h : jWs x = true) : pySpace x = true := by
  rcases jWs_cases x h with rfl | rfl | rfl | rfl <;> decide

theorem not_pySpace_not_jWs (x : Char) (h : pySpace x = false) : jWs x = false := by
  cases hj : jWs x
  · rfl
  · rw [jWs_pySpace x hj] at h
    exact absurd h (by simp)

theorem json_loads_ser (v : PVal) (hv : plainJ v = true) : json_loads (serJ v) = some v := by
  unfold json_loads
  have h := rtVal v ((serJ v).length + 1) [] hv (by omega) (fun d _ => rfl)
  rw [List.append_nil] at h
  rw [h]
  rfl

theorem skipJWs_ne_empty {x : Char} {l : List Char} (hm : x ∈ l) (hx : jWs x = false) :
    (skipJWs l).isEmpty = false := by
  by_contra h
  rw [Bool.not_eq_false, List.isEmpty_iff] at h
  have := List.dropWhile_eq_nil_iff.mp h x hm
  simp [hx] at this

/-- The first meaningful character of the document is not a quote, bracket or
brace — the case of junk-headed text. -/
def headSafeJ (cs : List Char) : Prop :=
  match skipJWs cs with
  | [] => True
  | c :: _ => c ≠ '"' ∧ c ≠ '[' ∧ c ≠ obraceC

theorem parseJVal_cons (f : Nat) (cs : List Char) (c : Char) (r0 : List Char)
    (hcs : skipJWs cs = c :: r0) :
    parseJVal (f+1) cs =
      (if c = '"' then
          match readJStr r0 with
          | some (s, r2) => some (.vstr s, r2)
          | none => none
        else if c = '[' then
          match skipJWs r0 with
          | [] => none
          | c2 :: r2 =>
              if c2 = ']' then some (.vlist [], r2)
              else
                match parseJItems f (c2 :: r2) with
                | some (xs, r3) => some (.vlist xs, r3)
                | none => none
        else if c = obraceC then
          match skipJWs r0 with
          | [] => none
          | c2 :: r2 =>
              if c2 = cbraceC then some (.vdict [], r2)
              else
                match parseJFields f (c2 :: r2) with
                | some (fs, r3) => some (.vdict fs, r3)
                | none => none
        else if numStart c then
          some (.vnum (c :: r0.takeWhile numChar), r0.dropWhile numChar)
        else if c = 't' then
          match r0 with
          | 'r' :: 'u' :: 'e' :: r2 => some (.vbool true, r2)
          | _ => none
        else if c = 'f' then
          match r0 with
          | 'a' :: 'l' :: 's' :: 'e' :: r2 => some (.vbool false, r2)
          | _ => none
        else if c = 'n' then
          match r0 with
          | 'u' :: 'l' :: 'l' :: r2 => some (.vnone, r2)
          | _ => none
        else none) := by
  rw [parseJVal_step, hcs]

theorem parseJVal_consume (fuel : Nat) (cs : List Char) (v : PVal) (r : List Char)
    (h : parseJVal fuel cs = some (v, r)) (hs : headSafeJ cs) :
    ∃ u, cs = u ++ r ∧ '[' ∉ u ∧ obraceC ∉ u := by
  cases fuel with
  | zero => exact absurd h (by simp [parseJVal])
  | succ f =>
      have hsplit : cs = cs.takeWhile jWs ++ skipJWs cs :=
        (List.takeWhile_append_dropWhile jWs cs).symm
      have hwsall : ∀ x ∈ cs.takeWhile jWs, jWs x = true :=
        fun x hx => List.mem_takeWhile_imp hx
      have hwsnb : ∀ x ∈ cs.takeWhile jWs, x ≠ '[' ∧ x ≠ obraceC :=
        fun x hx => jWs_not_brackets x (hwsall x hx)
      unfold headSafeJ at hs
      cases hcs : skipJWs cs with
      | nil =>
          rw [parseJVal_step, hcs] at h
          exact absurd h (by simp)
      | cons c r0 =>
          rw [parseJVal_cons f cs c r0 hcs] at h
          rw [hcs] at hs
          obtain ⟨hq, hbk, hbr⟩ := hs
          rw [if_neg hq, if_neg hbk, if_neg hbr] at h
          by_cases hnum : numStart c = true
          · rw [if_pos hnum] at h
            obtain ⟨-, hbk2, hbr2, -⟩ := numStart_more c hnum
            cases h
            refine ⟨cs.takeWhile jWs ++ c :: r0.takeWhile numChar, ?_, ?_, ?_⟩
            · conv_lhs => rw [hsplit, hcs]
              rw [List.append_assoc, List.cons_append]
              rw [List.takeWhile_append_dropWhile]
            · intro hm
              rcases List.mem_append.mp hm with hm | hm
              · exact (hwsnb _ hm).1 rfl
              · rcases List.mem_cons.mp hm with hm | hm
                · exact hbk2 hm.symm
                · have := List.mem_takeWhile_imp hm
                  exact absurd this (by decide)
            · intro hm
              rcases List.mem_append.mp hm with hm | hm
              · exact (hwsnb _ hm).2 rfl
              · rcases List.mem_cons.mp hm with hm | hm
                · exact hbr2 hm.symm
                · have := List.mem_takeWhile_imp hm
                  exact absurd this (by decide)
          · rw [if_neg hnum] at h
            by_cases ht : c = 't'
            · rw [if_pos ht] at h
              split at h
              · cases h
                subst ht
                refine ⟨cs.takeWhile jWs ++ ['t', 'r', 'u', 'e'], ?_, ?_, ?_⟩
                · conv_lhs => rw [hsplit, hcs]
                  simp
                · intro hm
                  rcases List.mem_append.mp hm with hm | hm
                  · exact (hwsnb _ hm).1 rfl
                  · exact absurd hm (by decide)
                · intro hm
                  rcases List.mem_append.mp hm with hm | hm
                  · exact (hwsnb _ hm).2 rfl
                  · exact absurd hm (by decide)
              · exact absurd h (by simp)
            · rw [if_neg ht] at h
              by_cases hfc : c = 'f'
              · rw [if_pos hfc] at h
                split at h
                · cases h
                  subst hfc
                  refine ⟨cs.takeWhile jWs ++ ['f', 'a', 'l', 's', 'e'], ?_, ?_, ?_⟩
                  · conv_lhs => rw [hsplit, hcs]
                    simp
                  · intro hm
                    rcases List.mem_append.mp hm with hm | hm
                    · exact (hwsnb _ hm).1 rfl
                    · exact absurd hm (by decide)
                  · intro hm
                    rcases List.mem_append.mp hm with hm | hm
                    · exact (hwsnb _ hm).2 rfl
                    · exact absurd hm (by decide)
                · exact absurd h (by simp)
              · rw [if_neg hfc] at h
                by_cases hn : c = 'n'
                · rw [if_pos hn] at h
                  split at h
                  · cases h
                    subst hn
                    refine ⟨cs.takeWhile jWs ++ ['n', 'u', 'l', 'l'], ?_, ?_, ?_⟩
                    · conv_lhs => rw [hsplit, hcs]
                      simp
                    · intro hm
                      rcases List.mem_append.mp hm with hm | hm
                      · exact (hwsnb _ hm).1 rfl
                      · exact absurd hm (by decide)
                    · intro hm
                      rcases List.mem_append.mp hm with hm | hm
                      · exact (hwsnb _ hm).2 rfl
                      · exact absurd hm (by decide)
                  · exact absurd h (by simp)
                · rw [if_neg hn] at h
                  exact absurd h (by simp)

theorem json_loads_junkhead (a s q : List Char) (c0 h0 : Char)
    (ha0 : a.head? = some c0) (hws : jWs c0 = false)
    (hsafe : c0 ≠ '"' ∧ c0 ≠ '[' ∧ c0 ≠ obraceC)
    (hnb : '[' ∉ a ∧ obraceC ∉ a)
    (hs0 : s.head? = some h0) (hbr : h0 = '[' ∨ h0 = obraceC) :
    json_loads (a ++ s ++ q) = none := by
  unfold json_loads
  cases hp : parseJVal ((a ++ s ++ q).length + 1) (a ++ s ++ q) with
  | none => rfl
  | some pr =>
      obtain ⟨v, r⟩ := pr
      cases a with
      | nil => exact absurd ha0 (by simp)
      | cons x t =>
          have hx : x = c0 := by
            have := ha0
            simp at this
            exact this
          subst hx
          have hsafeJ : headSafeJ ((x :: t) ++ s ++ q) := by
            unfold headSafeJ
            rw [List.cons_append, List.cons_append, skipJWs_cons hws]
            exact hsafe
          obtain ⟨u, hu, hbk, hbrc⟩ := parseJVal_consume _ _ _ _ hp hsafeJ
          have hh0 : jWs h0 = false := by
            rcases hbr with rfl | rfl <;> decide
          have hmem : h0 ∈ (x :: t) ++ s ++ q := by
            cases s with
            | nil => exact absurd hs0 (by simp)
            | cons y ys =>
                have hy : y = h0 := by
                  have := hs0
                  simp at this
                  exact this
                subst hy
                simp
          rw [hu] at hmem
          rcases List.mem_append.mp hmem with hm | hm
          · rcases hbr with rfl | rfl
            · exact absurd hm hbk
            · exact absurd hm hbrc
          · have hne := skipJWs_ne_empty hm hh0
            show (if (skipJWs r).isEmpty = true then some v else none) = none
            rw [hne]
            simp

theorem json_loads_junktail (v : PVal) (q : List Char) (c : Char)
    (hv : plainJ v = true) (hnum : numOK v q)
    (hq : q.getLast? = some c) (hc : jWs c = false) :
    json_loads (serJ v ++ q) = none := by
  unfold json_loads
  have hlen : (serJ v).length < (serJ v ++ q).length + 1 := by
    rw [List.length_append]
    omega
  rw [rtVal v ((serJ v ++ q).length + 1) q hv hlen hnum]
  have hm : c ∈ q := by
    obtain ⟨h2, he⟩ := List.mem_getLast?_eq_getLast (Option.mem_def.mpr hq)
    rw [he]
    exact List.getLast_mem h2
  have hne := skipJWs_ne_empty hm hc
  show (if (skipJWs q).isEmpty = true then some v else none) = none
  rw [hne]
  simp

theorem safe_facts (x : Char) (h : safeChar x = true) :
    x ≠ '[' ∧ x ≠ ']' ∧ x ≠ obraceC ∧ x ≠ cbraceC ∧ x ≠ '"' ∧ x ≠ btC := by
  simpa [safeChar, Bool.and_eq_true, and_assoc] using h

theorem pyFind_shift (c : Char) (a l : List Char) (ha : ∀ x ∈ a, x ≠ c) :
    pyFind c (a ++ l) = (pyFind c l).map (fun i => i + a.length) := by
  unfold pyFind
  rw [List.findIdx?_append]
  have hn : List.findIdx? (fun x => x = c) a = none :=
    List.findIdx?_eq_none_iff.mpr (fun x hx => by simp [ha x hx])
  rw [hn, Option.none_or]

theorem pyFind_at (c : Char) (a l : List Char) (ha : ∀ x ∈ a, x ≠ c)
    (hl : l.head? = some c) : pyFind c (a ++ l) = some a.length := by
  rw [pyFind_shift c a l ha]
  cases l with
  | nil => simp at hl
  | cons y t =>
      have hy : y = c := by simpa using hl
      subst hy
      unfold pyFind
      rw [List.findIdx?_cons]
      simp

theorem pyFind_none (c : Char) (l : List Char) (h : ∀ x ∈ l, x ≠ c) :
    pyFind c l = none :=
  List.findIdx?_eq_none_iff.mpr (fun x hx => by simp [h x hx])

theorem pyRfind_at (c : Char) (x y : List Char) (hy : ∀ z ∈ y, z ≠ c)
    (hx : x.getLast? = some c) :
    pyRfind c (x ++ y) = some (x.length - 1) := by
  unfold pyRfind
  rw [List.reverse_append]
  have hyr : ∀ z ∈ y.reverse, z ≠ c := fun z hz => hy z (List.mem_reverse.mp hz)
  have hfind : List.findIdx? (fun z => z = c) (y.reverse ++ x.reverse)
      = some y.reverse.length := by
    rw [List.findIdx?_append]
    have hn : List.findIdx? (fun z => z = c) y.reverse = none :=
      List.findIdx?_eq_none_iff.mpr (fun z hz => by simp [hyr z hz])
    rw [hn, Option.none_or]
    have hhead : x.reverse.head? = some c := by rw [List.head?_reverse, hx]
    cases hrx : x.reverse with
    | nil => rw [hrx] at hhead; simp at hhead
    | cons w t =>
        rw [hrx] at hhead
        have hw : w = c := by simpa using hhead
        subst hw
        rw [List.findIdx?_cons]
        simp
  rw [hfind]
  have hxne : x ≠ [] := by
    intro hz
    rw [hz] at hx
    simp at hx
  have hx1 : 1 ≤ x.length := by
    cases x with
    | nil => exact absurd rfl hxne
    | cons _ _ => simp
  have hlen : (x ++ y).length - 1 - y.reverse.length = x.length - 1 := by
    simp only [List.length_append, List.length_reverse]
    omega
  rw [Option.map]
  rw [hlen]

theorem pySlice_mid (a s b : List Char) :
    pySlice a.length (a.length + s.length) (a ++ s ++ b) = s := by
  unfold pySlice
  rw [List.append_assoc, List.take_append, List.take_left, List.drop_left]

theorem afterFirstSub_none {pat l : List Char} {b : Char}
    (hp : pat.head? = some b) (hb : b ∉ l) : afterFirstSub pat l = none := by
  induction l with
  | nil =>
      cases pat with
      | nil => simp at hp
      | cons p0 pt => rfl
  | cons c t ih =>
      unfold afterFirstSub
      rw [if_neg ?hpre]
      · exact ih (fun hm => hb (List.mem_cons_of_mem _ hm))
      case hpre =>
        intro hpre
        cases pat with
        | nil => simp at hp
        | cons p0 pt =>
            have hp0 : p0 = b := by simpa using hp
            obtain ⟨hpc, -⟩ :=
              List.cons_prefix_cons.mp (List.isPrefixOf_iff_prefix.mp hpre)
            rw [hp0] at hpc
            exact hb (by rw [hpc]; exact List.mem_cons_self _ _)

theorem containsSub_false {pat l : List Char} {b : Char}
    (hp : pat.head? = some b) (hb : b ∉ l) : containsSub pat l = false := by
  unfold containsSub
  rw [afterFirstSub_none hp hb]
  rfl

theorem afterFirstSub_at (pat pre rest : List Char) (b : Char)
    (hp : pat.head? = some b) (hb : b ∉ pre) :
    afterFirstSub pat (pre ++ (pat ++ rest)) = some rest := by
  induction pre with
  | nil =>
      rw [List.nil_append]
      cases pat with
      | nil => simp at hp
      | cons p0 pt =>
          rw [List.cons_append]
          unfold afterFirstSub
          rw [if_pos (List.isPrefixOf_iff_prefix.mpr
                (by rw [← List.cons_append]; exact List.prefix_append _ _))]
          rw [show (p0 :: (pt ++ rest)) = (p0 :: pt) ++ rest from rfl, List.drop_left]
  | cons c t ih =>
      rw [List.cons_append]
      unfold afterFirstSub
      rw [if_neg ?hpre2]
      · exact ih (fun hm => hb (List.mem_cons_of_mem _ hm))
      case hpre2 =>
        intro hpre
        cases pat with
        | nil => simp at hp
        | cons p0 pt =>
            have hp0 : p0 = b := by simpa using hp
            obtain ⟨hpc, -⟩ :=
              List.cons_prefix_cons.mp (List.isPrefixOf_iff_prefix.mp hpre)
            rw [hp0] at hpc
            exact hb (by rw [hpc]; exact List.mem_cons_self _ _)

theorem beforeFirstSub_at (pat m rest : List Char) (b : Char)
    (hp : pat.head? = some b) (hb : b ∉ m) :
    beforeFirstSub pat (m ++ (pat ++ rest)) = m := by
  induction m with
  | nil =>
      rw [List.nil_append]
      cases pat with
      | nil => simp at hp
      | cons p0 pt =>
          rw [List.cons_append]
          unfold beforeFirstSub
          rw [if_pos (List.isPrefixOf_iff_prefix.mpr
                (by rw [← List.cons_append]; exact List.prefix_append _ _))]
  | cons c t ih =>
      rw [List.cons_append]
      unfold beforeFirstSub
      rw [if_neg ?hpre3]
      · rw [ih (fun hm => hb (List.mem_cons_of_mem _ hm))]
      case hpre3 =>
        intro hpre
        cases pat with
        | nil => simp at hp
        | cons p0 pt =>
            have hp0 : p0 = b := by simpa using hp
            obtain ⟨hpc, -⟩ :=
              List.cons_prefix_cons.mp (List.isPrefixOf_iff_prefix.mp hpre)
            rw [hp0] at hpc
            exact hb (by rw [hpc]; exact List.mem_cons_self _ _)

/-- The batch a decoded structure yields: an array its elements, anything else
a singleton. -/
def decodeSeq : PVal → List PVal
  | .vlist xs => xs
  | w => [w]

theorem decoder_direct (t : List Char) (d : PVal)
    (hshape : (∃ xs, d = PVal.vlist xs) ∨ (∃ fs, d = PVal.vdict fs))
    (hnf1 : containsSub fenceJson (pyStrip t) = false)
    (hnf2 : containsSub fenceBare (pyStrip t) = false)
    (hdirect : json_loads (pyStrip t) = some d) :
    parse_task_from_nl t = some (decodeSeq d) := by
  unfold parse_task_from_nl
  simp only [hnf1, hnf2, Bool.false_eq_true, if_false]
  rw [hdirect]
  rcases hshape with ⟨xs, rfl⟩ | ⟨fs, rfl⟩ <;> rfl

theorem decoder_arr_span (t : List Char) (bs be : Nat) (xs : List PVal)
    (hnf1 : containsSub fenceJson (pyStrip t) = false)
    (hnf2 : containsSub fenceBare (pyStrip t) = false)
    (hdirect : json_loads (pyStrip t) = none)
    (hbs : pyFind '[' (pyStrip t) = some bs)
    (hbe : pyRfind ']' (pyStrip t) = some be)
    (hcond : (decide (bs < be) && ((pyFind obraceC (pyStrip t)).isNone
        || decide (bs < (pyFind obraceC (pyStrip t)).getD 0))) = true)
    (harr : json_loads (pySlice bs (be + 1) (pyStrip t)) = some (.vlist xs)) :
    parse_task_from_nl t = some xs := by
  unfold parse_task_from_nl
  simp only [hnf1, hnf2, Bool.false_eq_true, if_false]
  rw [hdirect]
  dsimp only
  rw [hbs, hbe]
  dsimp only
  rw [if_pos hcond]
  rw [harr]

theorem decoder_obj_span (t : List Char) (os oe : Nat) (gs : List (List Char × PVal))
    (hnf1 : containsSub fenceJson (pyStrip t) = false)
    (hnf2 : containsSub fenceBare (pyStrip t) = false)
    (hdirect : json_loads (pyStrip t) = none)
    (harrn : (match pyFind '[' (pyStrip t), pyRfind ']' (pyStrip t) with
        | some bs, some be =>
            if be > bs && ((pyFind obraceC (pyStrip t)).isNone
                || bs < (pyFind obraceC (pyStrip t)).getD 0) then
              json_loads (pySlice bs (be + 1) (pyStrip t))
            else none
        | _, _ => none) = none)
    (hos : pyFind obraceC (pyStrip t) = some os)
    (hoe : pyRfind cbraceC (pyStrip t) = some oe)
    (hlt : os < oe)
    (hobj : json_loads (pySlice os (oe + 1) (pyStrip t)) = some (.vdict gs)) :
    parse_task_from_nl t = some [PVal.vdict gs] := by
  unfold parse_task_from_nl
  simp only [hnf1, hnf2, Bool.false_eq_true, if_false]
  rw [hdirect]
  dsimp only
  rw [harrn]
  dsimp only
  rw [hos, hoe]
  dsimp only
  rw [if_pos (by simp [hlt])]
  rw [hobj]

theorem decoder_unfenced_arr (xs : List PVal) (p q : List Char)
    (hv : plainJ (PVal.vlist xs) = true)
    (hps : ∀ c ∈ p, safeChar c = true) (hqs : ∀ c ∈ q, safeChar c = true) :
    parse_task_from_nl (p ++ serJ (PVal.vlist xs) ++ q) = some xs := by
  have hser : serJ (PVal.vlist xs) = '[' :: (serItems xs ++ [']']) := rfl
  have hsne : serJ (PVal.vlist xs) ≠ [] := by
    rw [hser]
    exact List.cons_ne_nil _ _
  have hL2 : 2 ≤ (serJ (PVal.vlist xs)).length := by
    rw [hser]
    simp
  have hstrip : pyStrip (p ++ serJ (PVal.vlist xs) ++ q)
      = p.dropWhile pySpace ++ serJ (PVal.vlist xs)
          ++ (q.reverse.dropWhile pySpace).reverse :=
    pyStrip_mid p _ q '[' ']' rfl (by decide) (serJ_arr_last xs) (by decide)
  have hAs : ∀ x ∈ p.dropWhile pySpace, safeChar x = true :=
    fun x hx => hps x (mem_trimL hx)
  have hBs : ∀ x ∈ (q.reverse.dropWhile pySpace).reverse, safeChar x = true :=
    fun x hx => hqs x (mem_trimR hx)
  have hbt : btC ∉ pyStrip (p ++ serJ (PVal.vlist xs) ++ q) := by
    rw [hstrip]
    intro hm
    rcases List.mem_append.mp hm with hm | hm
    · rcases List.mem_append.mp hm with hm | hm
      · exact (safe_facts _ (hAs _ hm)).2.2.2.2.2 rfl
      · exact serJ_no_bt _ hv hm
    · exact (safe_facts _ (hBs _ hm)).2.2.2.2.2 rfl
  have hnf1 : containsSub fenceJson (pyStrip (p ++ serJ (PVal.vlist xs) ++ q)) = false :=
    containsSub_false (by decide) hbt
  have hnf2 : containsSub fenceBare (pyStrip (p ++ serJ (PVal.vlist xs) ++ q)) = false :=
    containsSub_false (by decide) hbt
  have hspan : json_loads (pyStrip (p ++ serJ (PVal.vlist xs) ++ q)) = none →
      parse_task_from_nl (p ++ serJ (PVal.vlist xs) ++ q) = some xs := by
    intro hdir
    have hbs : pyFind '[' (pyStrip (p ++ serJ (PVal.vlist xs) ++ q))
        = some (p.dropWhile pySpace).length := by
      rw [hstrip, List.append_assoc]
      exact pyFind_at _ _ _ (fun x hx => (safe_facts x (hAs x hx)).1) rfl
    have hbe : pyRfind ']' (pyStrip (p ++ serJ (PVal.vlist xs) ++ q))
        = some ((p.dropWhile pySpace ++ serJ (PVal.vlist xs)).length - 1) := by
      rw [hstrip]
      refine pyRfind_at _ _ _ (fun z hz => (safe_facts z (hBs z hz)).2.1) ?_
      rw [List.getLast?_append_of_ne_nil _ hsne]
      exact serJ_arr_last xs
    have hbrace : ∀ o,
        pyFind obraceC (pyStrip (p ++ serJ (PVal.vlist xs) ++ q)) = some o →
        (p.dropWhile pySpace).length < o := by
      intro o ho
      rw [hstrip] at ho
      have hre : p.dropWhile pySpace ++ serJ (PVal.vlist xs)
          ++ (q.reverse.dropWhile pySpace).reverse
          = (p.dropWhile pySpace ++ ['['])
              ++ ((serItems xs ++ [']']) ++ (q.reverse.dropWhile pySpace).reverse) := by
        rw [hser]
        simp
      rw [hre, pyFind_shift obraceC _ _ ?hsafe0] at ho
      case hsafe0 =>
        intro x hx
        rcases List.mem_append.mp hx with hx | hx
        · exact (safe_facts x (hAs x hx)).2.2.1
        · simp at hx
          subst hx
          decide
      cases hj : pyFind obraceC
          ((serItems xs ++ [']']) ++ (q.reverse.dropWhile pySpace).reverse) with
      | none =>
          rw [hj] at ho
          simp at ho
      | some j =>
          rw [hj, Option.map] at ho
          cases ho
          simp only [List.length_append, List.length_cons, List.length_nil]
          omega
    have hlt : (p.dropWhile pySpace).length
        < (p.dropWhile pySpace ++ serJ (PVal.vlist xs)).length - 1 := by
      rw [List.length_append]
      omega
    have hcond : (decide ((p.dropWhile pySpace).length
          < (p.dropWhile pySpace ++ serJ (PVal.vlist xs)).length - 1)
        && ((pyFind obraceC (pyStrip (p ++ serJ (PVal.vlist xs) ++ q))).isNone
          || decide ((p.dropWhile pySpace).length
            < (pyFind obraceC (pyStrip (p ++ serJ (PVal.vlist xs) ++ q))).getD 0)))
        = true := by
      cases hbrc : pyFind obraceC (pyStrip (p ++ serJ (PVal.vlist xs) ++ q)) with
      | none =>
          simp only [Option.isNone_none, Bool.true_or, Bool.and_true, decide_eq_true_eq,
            List.length_append]
          omega
      | some o =>
          have ho := hbrace o hbrc
          simp only [Option.isNone_some, Bool.false_or, Option.getD_some, decide_eq_true_eq,
            Bool.and_eq_true, List.length_append]
          exact ⟨by omega, ho⟩
    have harr : json_loads (pySlice (p.dropWhile pySpace).length
        ((p.dropWhile pySpace ++ serJ (PVal.vlist xs)).length - 1 + 1)
        (pyStrip (p ++ serJ (PVal.vlist xs) ++ q))) = some (PVal.vlist xs) := by
      have he : (p.dropWhile pySpace ++ serJ (PVal.vlist xs)).length - 1 + 1
          = (p.dropWhile pySpace).length + (serJ (PVal.vlist xs)).length := by
        rw [List.length_append]
        omega
      rw [hstrip, he, pySlice_mid]
      exact json_loads_ser _ hv
    exact decoder_arr_span _ _ _ _ hnf1 hnf2 hdir hbs hbe hcond harr
  cases hA0 : p.dropWhile pySpace with
  | nil =>
      cases hB0 : (q.reverse.dropWhile pySpace).reverse with
      | nil =>
          have hdir : json_loads (pyStrip (p ++ serJ (PVal.vlist xs) ++ q))
              = some (PVal.vlist xs) := by
            rw [hstrip, hA0, hB0, List.nil_append, List.append_nil]
            exact json_loads_ser _ hv
          exact decoder_direct _ _ (Or.inl ⟨xs, rfl⟩) hnf1 hnf2 hdir
      | cons y ys =>
          apply hspan
          rw [hstrip, hA0, List.nil_append]
          obtain ⟨c, hc⟩ : ∃ c,
              ((q.reverse.dropWhile pySpace).reverse).getLast? = some c := by
            rw [hB0]
            exact ⟨(y :: ys).getLast (by simp),
              List.getLast?_eq_getLast_of_ne_nil (by simp)⟩
          have hhead : (q.reverse.dropWhile pySpace).head? = some c := by
            have h2 := List.head?_reverse ((q.reverse.dropWhile pySpace).reverse)
            rw [List.reverse_reverse, hc] at h2
            exact h2
          have hcps : pySpace c = false :=
            head?_dropWhile_false pySpace q.reverse c hhead
          exact json_loads_junktail _ _ c hv (fun d hd => by simp at hd) hc
            (not_pySpace_not_jWs c hcps)
  | cons c t =>
      apply hspan
      rw [hstrip, hA0]
      have hcmem : c ∈ p.dropWhile pySpace := by
        rw [hA0]
        exact List.mem_cons_self _ _
      have hsafe := safe_facts c (hAs c hcmem)
      have hcps : pySpace c = false :=
        head?_dropWhile_false pySpace p c (by rw [hA0]; rfl)
      apply json_loads_junkhead (c :: t) (serJ (PVal.vlist xs)) _ c '[' rfl
        (not_pySpace_not_jWs c hcps)
        ⟨hsafe.2.2.2.2.1, hsafe.1, hsafe.2.2.1⟩ ?_ rfl (Or.inl rfl)
      constructor <;> intro hm
      · exact (safe_facts _ (hAs _ (by rw [hA0]; exact hm))).1 rfl
      · exact (safe_facts _ (hAs _ (by rw [hA0]; exact hm))).2.2.1 rfl

theorem decoder_unfenced_obj (fs : List (List Char × PVal)) (p q : List Char)
    (hv : plainJ (PVal.vdict fs) = true)
    (hps : ∀ c ∈ p, safeChar c = true) (hqs : ∀ c ∈ q, safeChar c = true) :
    parse_task_from_nl (p ++ serJ (PVal.vdict fs) ++ q) = some [PVal.vdict fs] := by
  have hser : serJ (PVal.vdict fs) = obraceC :: (serFields fs ++ [cbraceC]) := rfl
  have hsne : serJ (PVal.vdict fs) ≠ [] := by
    rw [hser]
    exact List.cons_ne_nil _ _
  have hL2 : 2 ≤ (serJ (PVal.vdict fs)).length := by
    rw [hser]
    simp
  have hstrip : pyStrip (p ++ serJ (PVal.vdict fs) ++ q)
      = p.dropWhile pySpace ++ serJ (PVal.vdict fs)
          ++ (q.reverse.dropWhile pySpace).reverse :=
    pyStrip_mid p _ q obraceC cbraceC rfl (by decide) (serJ_dict_last fs) (by decide)
  have hAs : ∀ x ∈ p.dropWhile pySpace, safeChar x = true :=
    fun x hx => hps x (mem_trimL hx)
  have hBs : ∀ x ∈ (q.reverse.dropWhile pySpace).reverse, safeChar x = true :=
    fun x hx => hqs x (mem_trimR hx)
  have hbt : btC ∉ pyStrip (p ++ serJ (PVal.vdict fs) ++ q) := by
    rw [hstrip]
    intro hm
    rcases List.mem_append.mp hm with hm | hm
    · rcases List.mem_append.mp hm with hm | hm
      · exact (safe_facts _ (hAs _ hm)).2.2.2.2.2 rfl
      · exact serJ_no_bt _ hv hm
    · exact (safe_facts _ (hBs _ hm)).2.2.2.2.2 rfl
  have hnf1 : containsSub fenceJson (pyStrip (p ++ serJ (PVal.vdict fs) ++ q)) = false :=
    containsSub_false (by decide) hbt
  have hnf2 : containsSub fenceBare (pyStrip (p ++ serJ (PVal.vdict fs) ++ q)) = false :=
    containsSub_false (by decide) hbt
  have hspan : json_loads (pyStrip (p ++ serJ (PVal.vdict fs) ++ q)) = none →
      parse_task_from_nl (p ++ serJ (PVal.vdict fs) ++ q) = some [PVal.vdict fs] := by
    intro hdir
    have hos : pyFind obraceC (pyStrip (p ++ serJ (PVal.vdict fs) ++ q))
        = some (p.dropWhile pySpace).length := by
      rw [hstrip, List.append_assoc]
      exact pyFind_at _ _ _ (fun x hx => (safe_facts x (hAs x hx)).2.2.1) rfl
    have hoe : pyRfind cbraceC (pyStrip (p ++ serJ (PVal.vdict fs) ++ q))
        = some ((p.dropWhile pySpace ++ serJ (PVal.vdict fs)).length - 1) := by
      rw [hstrip]
      refine pyRfind_at _ _ _ (fun z hz => (safe_facts z (hBs z hz)).2.2.2.1) ?_
      rw [List.getLast?_append_of_ne_nil _ hsne]
      exact serJ_dict_last fs
    have hbkoff : ∀ i,
        pyFind '[' (pyStrip (p ++ serJ (PVal.vdict fs) ++ q)) = some i →
        (p.dropWhile pySpace).length < i := by
      intro i hi
      rw [hstrip] at hi
      have hre : p.dropWhile pySpace ++ serJ (PVal.vdict fs)
          ++ (q.reverse.dropWhile pySpace).reverse
          = (p.dropWhile pySpace ++ [obraceC])
              ++ ((serFields fs ++ [cbraceC]) ++ (q.reverse.dropWhile pySpace).reverse) := by
        rw [hser]
        simp
      rw [hre, pyFind_shift '[' _ _ ?hsafeD] at hi
      case hsafeD =>
        intro x hx
        rcases List.mem_append.mp hx with hx | hx
        · exact (safe_facts x (hAs x hx)).1
        · simp at hx
          subst hx
          decide
      cases hj : pyFind '['
          ((serFields fs ++ [cbraceC]) ++ (q.reverse.dropWhile pySpace).reverse) with
      | none =>
          rw [hj] at hi
          simp at hi
      | some j =>
          rw [hj, Option.map] at hi
          cases hi
          simp only [List.length_append, List.length_cons, List.length_nil]
          omega
    have harrn : (match pyFind '[' (pyStrip (p ++ serJ (PVal.vdict fs) ++ q)),
          pyRfind ']' (pyStrip (p ++ serJ (PVal.vdict fs) ++ q)) with
        | some bs, some be =>
            if be > bs && ((pyFind obraceC (pyStrip (p ++ serJ (PVal.vdict fs) ++ q))).isNone
                || bs < (pyFind obraceC (pyStrip (p ++ serJ (PVal.vdict fs) ++ q))).getD 0) then
              json_loads (pySlice bs (be + 1) (pyStrip (p ++ serJ (PVal.vdict fs) ++ q)))
            else none
        | _, _ => none) = none := by
      cases hbk : pyFind '[' (pyStrip (p ++ serJ (PVal.vdict fs) ++ q)) with
      | none => rfl
      | some i =>
          have hi := hbkoff i hbk
          cases hke : pyRfind ']' (pyStrip (p ++ serJ (PVal.vdict fs) ++ q)) with
          | none => rfl
          | some k2 =>
              dsimp only
              rw [hos]
              rw [if_neg ?hnc]
              case hnc =>
                simp only [Option.isNone_some, Bool.false_or, Option.getD_some,
                  Bool.and_eq_true, decide_eq_true_eq]
                rintro ⟨-, h2⟩
                omega
    have hlt : (p.dropWhile pySpace).length
        < (p.dropWhile pySpace ++ serJ (PVal.vdict fs)).length - 1 := by
      rw [List.length_append]
      omega
    have hobj : json_loads (pySlice (p.dropWhile pySpace).length
        ((p.dropWhile pySpace ++ serJ (PVal.vdict fs)).length - 1 + 1)
        (pyStrip (p ++ serJ (PVal.vdict fs) ++ q))) = some (PVal.vdict fs) := by
      have he : (p.dropWhile pySpace ++ serJ (PVal.vdict fs)).length - 1 + 1
          = (p.dropWhile pySpace).length + (serJ (PVal.vdict fs)).length := by
        rw [List.length_append]
        omega
      rw [hstrip, he, pySlice_mid]
      exact json_loads_ser _ hv
    exact decoder_obj_span _ _ _ _ hnf1 hnf2 hdir harrn hos hoe hlt hobj
  cases hA0 : p.dropWhile pySpace with
  | nil =>
      cases hB0 : (q.reverse.dropWhile pySpace).reverse with
      | nil =>
          have hdir : json_loads (pyStrip (p ++ serJ (PVal.vdict fs) ++ q))
              = some (PVal.vdict fs) := by
            rw [hstrip, hA0, hB0, List.nil_append, List.append_nil]
            exact json_loads_ser _ hv
          exact decoder_direct _ _ (Or.inr ⟨fs, rfl⟩) hnf1 hnf2 hdir
      | cons y ys =>
          apply hspan
          rw [hstrip, hA0, List.nil_append]
          obtain ⟨c, hc⟩ : ∃ c,
              ((q.reverse.dropWhile pySpace).reverse).getLast? = some c := by
            rw [hB0]
            exact ⟨(y :: ys).getLast (by simp),
              List.getLast?_eq_getLast_of_ne_nil (by simp)⟩
          have hhead : (q.reverse.dropWhile pySpace).head? = some c := by
            have h2 := List.head?_reverse ((q.reverse.dropWhile pySpace).reverse)
            rw [List.reverse_reverse, hc] at h2
            exact h2
          have hcps : pySpace c = false :=
            head?_dropWhile_false pySpace q.reverse c hhead
          exact json_loads_junktail _ _ c hv (fun d hd => by simp at hd) hc
            (not_pySpace_not_jWs c hcps)
  | cons c t =>
      apply hspan
      rw [hstrip, hA0]
      have hcmem : c ∈ p.dropWhile pySpace := by
        rw [hA0]
        exact List.mem_cons_self _ _
      have hsafe := safe_facts c (hAs c hcmem)
      have hcps : pySpace c = false :=
        head?_dropWhile_false pySpace p c (by rw [hA0]; rfl)
      apply json_loads_junkhead (c :: t) (serJ (PVal.vdict fs)) _ c obraceC rfl
        (not_pySpace_not_jWs c hcps)
        ⟨hsafe.2.2.2.2.1, hsafe.1, hsafe.2.2.1⟩ ?_ rfl (Or.inr rfl)
      constructor <;> intro hm
      · exact (safe_facts _ (hAs _ (by rw [hA0]; exact hm))).1 rfl
      · exact (safe_facts _ (hAs _ (by rw [hA0]; exact hm))).2.2.1 rfl

theorem decoder_fenced (v : PVal) (p2 q2 w1 w2 : List Char)
    (hv : plainJ v = true)
    (hshape : (∃ xs, v = PVal.vlist xs) ∨ (∃ gs, v = PVal.vdict gs))
    (hp2 : btC ∉ p2)
    (hw1 : ∀ c ∈ w1, pySpace c = true) (hw2 : ∀ c ∈ w2, pySpace c = true) :
    parse_task_from_nl
        (p2 ++ (fenceJson ++ (w1 ++ serJ v ++ w2) ++ fenceBare) ++ q2)
      = some (decodeSeq v) := by
  obtain ⟨c1, c2, hh, hl, hp1, hq1⟩ : ∃ c1 c2, (serJ v).head? = some c1
      ∧ (serJ v).getLast? = some c2 ∧ pySpace c1 = false ∧ pySpace c2 = false := by
    rcases hshape with ⟨xs, rfl⟩ | ⟨gs, rfl⟩
    · exact ⟨'[', ']', rfl, serJ_arr_last xs, by decide, by decide⟩
    · exact ⟨obraceC, cbraceC, rfl, serJ_dict_last gs, by decide, by decide⟩
  have hmidh : (fenceJson ++ (w1 ++ serJ v ++ w2) ++ fenceBare).head? = some btC := by
    rw [List.append_assoc, List.head?_append, show fenceJson.head? = some btC from by decide]
    rfl
  have hmidl : (fenceJson ++ (w1 ++ serJ v ++ w2) ++ fenceBare).getLast? = some btC := by
    rw [List.getLast?_append_of_ne_nil _ (show fenceBare ≠ [] from by decide)]
    decide
  have hstrip : pyStrip (p2 ++ (fenceJson ++ (w1 ++ serJ v ++ w2) ++ fenceBare) ++ q2)
      = p2.dropWhile pySpace ++ (fenceJson ++ (w1 ++ serJ v ++ w2) ++ fenceBare)
          ++ (q2.reverse.dropWhile pySpace).reverse :=
    pyStrip_mid p2 _ q2 btC btC hmidh (by decide) hmidl (by decide)
  have hsh : pyStrip (p2 ++ (fenceJson ++ (w1 ++ serJ v ++ w2) ++ fenceBare) ++ q2)
      = p2.dropWhile pySpace ++ (fenceJson ++ ((w1 ++ serJ v ++ w2)
          ++ (fenceBare ++ (q2.reverse.dropWhile pySpace).reverse))) := by
    rw [hstrip]
    simp [List.append_assoc]
  have hbtp : btC ∉ p2.dropWhile pySpace := fun hm => hp2 (mem_trimL hm)
  have haf : afterFirstSub fenceJson
      (pyStrip (p2 ++ (fenceJson ++ (w1 ++ serJ v ++ w2) ++ fenceBare) ++ q2))
      = some ((w1 ++ serJ v ++ w2)
          ++ (fenceBare ++ (q2.reverse.dropWhile pySpace).reverse)) := by
    rw [hsh]
    exact afterFirstSub_at fenceJson _ _ btC (by decide) hbtp
  have hct : containsSub fenceJson
      (pyStrip (p2 ++ (fenceJson ++ (w1 ++ serJ v ++ w2) ++ fenceBare) ++ q2)) = true := by
    unfold containsSub
    rw [haf]
    rfl
  have hbtm : btC ∉ w1 ++ serJ v ++ w2 := by
    intro hm
    rcases List.mem_append.mp hm with hm | hm
    · rcases List.mem_append.mp hm with hm | hm
      · have := hw1 _ hm
        exact absurd this (by decide)
      · exact serJ_no_bt _ hv hm
    · have := hw2 _ hm
      exact absurd this (by decide)
  have hbefore : beforeFirstSub fenceBare ((w1 ++ serJ v ++ w2)
      ++ (fenceBare ++ (q2.reverse.dropWhile pySpace).reverse)) = w1 ++ serJ v ++ w2 :=
    beforeFirstSub_at fenceBare _ _ btC (by decide) hbtm
  have hw1n : w1.dropWhile pySpace = [] :=
    List.dropWhile_eq_nil_iff.mpr (fun x hx => by simp [hw1 x hx])
  have hw2n : (w2.reverse.dropWhile pySpace).reverse = [] := by
    have h0 : w2.reverse.dropWhile pySpace = [] :=
      List.dropWhile_eq_nil_iff.mpr
        (fun x hx => by simp [hw2 x (List.mem_reverse.mp hx)])
    rw [h0]
    rfl
  have hcontent : pyStrip (w1 ++ serJ v ++ w2) = serJ v := by
    rw [pyStrip_mid w1 _ w2 c1 c2 hh hp1 hl hq1, hw1n, hw2n, List.nil_append,
      List.append_nil]
  unfold parse_task_from_nl
  simp only [hct, if_true]
  rw [haf]
  dsimp only [Option.getD]
  rw [hbefore, hcontent, json_loads_ser v hv]
  rcases hshape with ⟨xs, rfl⟩ | ⟨gs, rfl⟩ <;> rfl

/-- C3 counterexample: the claim's "arbitrary surrounding text" fails — the
valid array `[1]` sits embedded in the text, but a stray `]` in the trailing
prose widens the greedy span to an unparseable slice and the decoder raises. -/
theorem c3_embedded_json_not_recovered :
    json_loads "[1]".toList = some (PVal.vlist [PVal.vnum ['1']])
    ∧ "[1] ok]".toList = "".toList ++ "[1]".toList ++ " ok]".toList
    ∧ parse_task_from_nl "[1] ok]".toList = none :=
  ⟨rfl, rfl, rfl⟩

/-- C3 (amended): for every escape-free JSON array or object, the decoder
recovers the structure's sequence (the array's elements, or the singleton
holding the object) from surrounding text free of brackets, braces, quotes and
backticks — and, fenced, from a ```json block with whitespace padding, any
backtick-free text before the fence and arbitrary text after it.  Arbitrary
surrounding text, however, can defeat the recovery (see the counterexample). -/
theorem c3_decoder_recovery (v : PVal) (p q p2 q2 w1 w2 : List Char)
    (hv : plainJ v = true)
    (hshape : (∃ xs, v = PVal.vlist xs) ∨ (∃ gs, v = PVal.vdict gs))
    (hps : ∀ c ∈ p, safeChar c = true) (hqs : ∀ c ∈ q, safeChar c = true)
    (hp2 : btC ∉ p2)
    (hw1 : ∀ c ∈ w1, pySpace c = true) (hw2 : ∀ c ∈ w2, pySpace c = true) :
    parse_task_from_nl (p ++ serJ v ++ q) = some (decodeSeq v)
    ∧ parse_task_from_nl
        (p2 ++ (fenceJson ++ (w1 ++ serJ v ++ w2) ++ fenceBare) ++ q2)
      = some (decodeSeq v) := by
  constructor
  · rcases hshape with ⟨xs, rfl⟩ | ⟨gs, rfl⟩
    · exact decoder_unfenced_arr xs p q hv hps hqs
    · exact decoder_unfenced_obj gs p q hv hps hqs
  · exact decoder_fenced v p2 q2 w1 w2 hv hshape hp2 hw1 hw2

/-- Witness for `c3_decoder_recovery`: prose around a serialized array, bare
and fenced, both decode to the array's elements. -/
theorem c3_decoder_recovery_witness :
    parse_task_from_nl ("Sure: ".toList ++ serJ (PVal.vlist [PVal.vnum ['2']])
        ++ " done.".toList)
      = some (decodeSeq (PVal.vlist [PVal.vnum ['2']]))
    ∧ parse_task_from_nl ("Sure: ".toList
        ++ (fenceJson ++ ("\n".toList ++ serJ (PVal.vlist [PVal.vnum ['2']])
            ++ "\n".toList) ++ fenceBare)
        ++ " done.".toList)
      = some (decodeSeq (PVal.vlist [PVal.vnum ['2']])) :=
  c3_decoder_recovery (PVal.vlist [PVal.vnum ['2']]) "Sure: ".toList " done.".toList
    "Sure: ".toList " done.".toList "\n".toList "\n".toList
    (by decide) (Or.inl ⟨[PVal.vnum ['2']], rfl⟩) (by decide) (by decide)
    (by decide) (by decide) (by decide)
